import Mathlib

/-!
# Verification of the gobackup-app backup/restore core

A shallow embedding of the gobackup-app repository (Go): the chunk packer
(`internal/backup/chunker.go`), the compression-codec boundary
(`internal/backup/compressor.go`), the metadata catalog
(`internal/metadata/manager.go`, `internal/metadata/file_actions.go`), the
backup orchestrator (`internal/backup/engine.go`), the restore engine
(`internal/restore/engine.go`) and the debounced change coordinator
(`internal/watcher`).

Modelling conventions:
- Byte sequences are `List Nat` (each element a byte value).
- Filesystem paths are `List String` (path components); `filepath.Join`
  is list append and `filepath.Rel` drops the root's components.
- Go maps are association lists with insert-or-replace update.  Go map
  iteration order is unspecified; the model fixes insertion order, and
  every claim proved here is order-insensitive (membership / emptiness).
- `crypto/sha256` is modelled by a full executable SHA-256 over byte
  lists.  Go formats digests as hex strings; hex encoding is injective,
  so comparing digest byte lists coincides with comparing the strings.
- `compress/gzip` is an external library; it is modelled by an abstract
  `Codec` (compress / fallible decompress) together with the round-trip
  predicate `Codec.Lawful` stating that decompressing a successful
  compression yields the input back.
- The OS is modelled explicitly: `os.Stat` succeeds exactly on the paths
  an `Fsys` lists, `os.ReadFile` additionally requires the entry's
  `readable` flag (a stat-able file whose read fails models permission
  errors), and `os.WriteFile` for chunk files can be made to fail per
  chunk id through the environment's `writeFails` list.
-/

namespace GoBackup

/-- Byte sequences, as in Go `[]byte`. -/
abbrev Bytes := List Nat

/-- Filesystem paths as lists of components (`filepath.Join` = append). -/
abbrev FPath := List String

/-- Association-list lookup, the model of Go map indexing `m[k]`. -/
def getKV {K V : Type} [DecidableEq K] : List (K × V) → K → Option V
  | [], _ => none
  | (k, v) :: rest, q => if q = k then some v else getKV rest q

/-- Association-list insert-or-replace, the model of Go map assignment
`m[k] = v`. -/
def putKV {K V : Type} [DecidableEq K] : List (K × V) → K → V → List (K × V)
  | [], q, w => [(q, w)]
  | (k, v) :: rest, q, w => if q = k then (q, w) :: rest else (k, v) :: putKV rest q w

/-- The keys of an association list are pairwise distinct. -/
def keysNodup {K V : Type} (l : List (K × V)) : Prop := (l.map Prod.fst).Nodup

/-! ## SHA-256 (the model of Go's `crypto/sha256`)

A complete executable SHA-256: padding, message schedule, compression
rounds.  All word arithmetic is `Nat` with explicit reduction modulo
`2 ^ 32`. -/

/-- Truncate to a 32-bit word. -/
def w32 (x : Nat) : Nat := x % 4294967296

/-- Truncate to a byte. -/
def w8 (x : Nat) : Nat := x % 256

/-- Rotate a 32-bit word right by `n`. -/
def rotr (n x : Nat) : Nat := w32 ((x >>> n) ||| (x <<< (32 - n)))

def bsig0 (x : Nat) : Nat := rotr 2 x ^^^ rotr 13 x ^^^ rotr 22 x

def bsig1 (x : Nat) : Nat := rotr 6 x ^^^ rotr 11 x ^^^ rotr 25 x

def ssig0 (x : Nat) : Nat := rotr 7 x ^^^ rotr 18 x ^^^ (x >>> 3)

def ssig1 (x : Nat) : Nat := rotr 17 x ^^^ rotr 19 x ^^^ (x >>> 10)

/-- The 64 SHA-256 round constants. -/
def sha256K : List Nat :=
  [1116352408, 1899447441, 3049323471, 3921009573,
   961987163, 1508970993, 2453635748, 2870763221,
   3624381080, 310598401, 607225278, 1426881987,
   1925078388, 2162078206, 2614888103, 3248222580,
   3835390401, 4022224774, 264347078, 604807628,
   770255983, 1249150122, 1555081692, 1996064986,
   2554220882, 2821834349, 2952996808, 3210313671,
   3336571891, 3584528711, 113926993, 338241895,
   666307205, 773529912, 1294757372, 1396182291,
   1695183700, 1986661051, 2177026350, 2456956037,
   2730485921, 2820302411, 3259730800, 3345764771,
   3516065817, 3600352804, 4094571909, 275423344,
   430227734, 506948616, 659060556, 883997877,
   958139571, 1322822218, 1537002063, 1747873779,
   1955562222, 2024104815, 2227730452, 2361852424,
   2428436474, 2756734187, 3204031479, 3329325298]

/-- The eight SHA-256 working variables. -/
structure H8 where
  a : Nat
  b : Nat
  c : Nat
  d : Nat
  e : Nat
  f : Nat
  g : Nat
  hh : Nat
deriving Repr, DecidableEq

/-- The SHA-256 initial hash value. -/
def sha256H0 : H8 :=
  ⟨1779033703, 3144134277, 1013904242, 2773480762,
   1359893119, 2600822924, 528734635, 1541459225⟩

/-- SHA-256 padding: append `0x80`, zeros, and the 64-bit big-endian bit
length, to a multiple of 64 bytes. -/
def padBytes (msg : Bytes) : Bytes :=
  let L := msg.length
  let k := (56 + 64 - ((L + 1) % 64)) % 64
  let bl := 8 * L
  msg ++ [128] ++ List.replicate k 0 ++
    [w8 (bl >>> 56), w8 (bl >>> 48), w8 (bl >>> 40), w8 (bl >>> 32),
     w8 (bl >>> 24), w8 (bl >>> 16), w8 (bl >>> 8), w8 bl]

/-- Group bytes into big-endian 32-bit words. -/
def toWords : Bytes → List Nat
  | b0 :: b1 :: b2 :: b3 :: rest =>
      ((w8 b0 <<< 24) ||| (w8 b1 <<< 16) ||| (w8 b2 <<< 8) ||| w8 b3) :: toWords rest
  | _ => []

/-- One message-schedule extension step over the words accumulated so far. -/
def schedStep (w : List Nat) : Nat :=
  let n := w.length
  w32 (w.getD (n - 16) 0 + w32 (ssig0 (w.getD (n - 15) 0)) +
       w.getD (n - 7) 0 + w32 (ssig1 (w.getD (n - 2) 0)))

/-- Extend the schedule by `n` further words. -/
def extendW : Nat → List Nat → List Nat
  | 0, w => w
  | n + 1, w => extendW n (w ++ [schedStep w])

/-- One SHA-256 compression round, fed the pair (round constant, schedule
word). -/
def roundStep (s : H8) (kw : Nat × Nat) : H8 :=
  let ch := (s.e &&& s.f) ^^^ ((s.e ^^^ 4294967295) &&& s.g)
  let t1 := w32 (s.hh + w32 (bsig1 s.e) + w32 ch + kw.1 + kw.2)
  let mj := (s.a &&& s.b) ^^^ (s.a &&& s.c) ^^^ (s.b &&& s.c)
  let t2 := w32 (w32 (bsig0 s.a) + w32 mj)
  ⟨w32 (t1 + t2), s.a, s.b, s.c, w32 (s.d + t1), s.e, s.f, s.g⟩

/-- Compress one 16-word block into the running hash value. -/
def compressBlock (H : H8) (block : List Nat) : H8 :=
  let w := extendW 48 block
  let r := (sha256K.zip w).foldl roundStep H
  ⟨w32 (H.a + r.a), w32 (H.b + r.b), w32 (H.c + r.c), w32 (H.d + r.d),
   w32 (H.e + r.e), w32 (H.f + r.f), w32 (H.g + r.g), w32 (H.hh + r.hh)⟩

/-- Process `n` consecutive 16-word blocks (fuel-driven so the definition
reduces by evaluation). -/
def processN : Nat → H8 → List Nat → H8
  | 0, H, _ => H
  | n + 1, H, ws => processN n (compressBlock H (ws.take 16)) (ws.drop 16)

/-- A 32-bit word as four big-endian bytes. -/
def wordBytes (x : Nat) : Bytes := [w8 (x >>> 24), w8 (x >>> 16), w8 (x >>> 8), w8 x]

/-- SHA-256 of a byte sequence, as 32 digest bytes. -/
def sha256 (msg : Bytes) : Bytes :=
  let ws := toWords (padBytes msg)
  let r := processN (ws.length / 16) sha256H0 ws
  wordBytes r.a ++ wordBytes r.b ++ wordBytes r.c ++ wordBytes r.d ++
    wordBytes r.e ++ wordBytes r.f ++ wordBytes r.g ++ wordBytes r.hh

/-- `utils.CalculateDataHash` (`internal/utils/hash.go`): the SHA-256 digest
of a byte sequence. -/
def CalculateDataHash (data : Bytes) : Bytes := sha256 data

/-! ## Filesystem model

`os.Stat` succeeds exactly on listed paths; `os.ReadFile` (and hence
`utils.CalculateFileHash`, which re-opens the file) additionally needs
`readable`.  A stat-able entry with `readable = false` models a file whose
read fails (permissions, race). -/

/-- One filesystem entry as the Go code observes it. -/
structure FsEntry where
  isDir : Bool
  readable : Bool
  content : Bytes
  modTime : Nat
deriving Repr, DecidableEq

/-- The watched filesystem: stat-able paths with their entries. -/
abbrev Fsys := List (FPath × FsEntry)

/-- `utils.CalculateFileHash`: hash of a file's contents, failing when the
file cannot be opened or read. -/
def CalculateFileHash (fs : Fsys) (p : FPath) : Option Bytes :=
  match getKV fs p with
  | some e => if e.readable then some (sha256 e.content) else none
  | none => none

/-! ## Chunk packer (`internal/backup/chunker.go`, chunk model file) -/

/-- `backup.ChunkSize`: the fixed 5 MiB chunk-size bound. -/
def ChunkSize : Nat := 5 * 1024 * 1024

/-- `backup.Chunker`: the packer-local chunk-ID counter. -/
structure Chunker where
  chunkID : Nat
deriving Repr, DecidableEq

/-- `backup.NewChunker`: the counter always starts at 1. -/
def NewChunker : Chunker := ⟨1⟩

/-- `backup.ChunkFileInfo`: one per-file byte range recorded in a chunk. -/
structure ChunkFileInfo where
  path : FPath
  offset : Nat
  size : Nat
  hash : Bytes
deriving Repr, DecidableEq

/-- `backup.ChunkData`: an in-memory chunk before compression. -/
structure ChunkData where
  id : Nat
  data : Bytes
  files : List ChunkFileInfo
  hash : Bytes
deriving Repr, DecidableEq

/-- The loop state of `Chunker.CreateChunks`: sealed chunks, the chunk in
progress, the running `currentSize`, and the counter `c.chunkID`. -/
structure PackState where
  chunks : List ChunkData
  current : ChunkData
  currentSize : Nat
  nextID : Nat
deriving Repr, DecidableEq

/-- One iteration of the loop body of `Chunker.CreateChunks` for one input
path: stat (skip on failure), skip directories, seal the current chunk when
the stat size would overflow the bound and the chunk is non-empty, then
read (skip on failure), hash, and append the file's bytes and range. -/
def chunkStep (fs : Fsys) (st : PackState) (p : FPath) : PackState :=
  match getKV fs p with
  | none => st
  | some e =>
    if e.isDir then st
    else
      let st1 :=
        if st.currentSize + e.content.length > ChunkSize then
          if 0 < st.current.files.length then
            { chunks := st.chunks ++ [{ st.current with hash := CalculateDataHash st.current.data }],
              current := { id := st.nextID, data := [], files := [], hash := [] },
              currentSize := 0,
              nextID := st.nextID + 1 }
          else st
        else st
      if e.readable then
        { st1 with
          current :=
            { st1.current with
              files := st1.current.files ++
                [{ path := p, offset := st1.current.data.length,
                   size := e.content.length, hash := sha256 e.content }],
              data := st1.current.data ++ e.content },
          currentSize := st1.currentSize + e.content.length }
      else st1

/-- `Chunker.CreateChunks`: fold the loop body over the input paths, then
seal the final chunk if non-empty.  Returns the chunks and the advanced
counter (the Go method mutates the receiver).  The Go method's error result
is always nil. -/
def CreateChunks (fs : Fsys) (c : Chunker) (files : List FPath) : List ChunkData × Chunker :=
  let st0 : PackState :=
    { chunks := [], current := { id := c.chunkID, data := [], files := [], hash := [] },
      currentSize := 0, nextID := c.chunkID + 1 }
  let st := files.foldl (chunkStep fs) st0
  let out :=
    if 0 < st.current.files.length then
      st.chunks ++ [{ st.current with hash := CalculateDataHash st.current.data }]
    else st.chunks
  (out, ⟨st.nextID⟩)

/-- `Chunker.ExtractFileFromChunk`: boundary check, slice, integrity check. -/
def ExtractFileFromChunk (chunkData : Bytes) (fi : ChunkFileInfo) : Except String Bytes :=
  if fi.offset + fi.size > chunkData.length then
    .error "file data extends beyond chunk boundary"
  else
    let data := (chunkData.drop fi.offset).take fi.size
    if CalculateDataHash data ≠ fi.hash then .error "file hash mismatch"
    else .ok data

/-! ## Compression codec boundary (`internal/backup/compressor.go`)

gzip is an external library; the model is an abstract codec whose contract
(spec 4.3) is that decompression inverts successful compression. -/

/-- An abstract compression codec: `Compress` and the fallible
`Decompress`. -/
structure Codec where
  compress : Bytes → Except String Bytes
  decompress : Bytes → Except String Bytes

/-- The codec contract: decompressing the output of a successful
compression restores the input. -/
def Codec.Lawful (c : Codec) : Prop :=
  ∀ b out, c.compress b = .ok out → c.decompress out = .ok b

/-- The identity codec, a concrete lawful instance used by witnesses. -/
def idCodec : Codec := ⟨fun b => .ok b, fun b => .ok b⟩

/-! ## Data model (`pkg/models/types.go`) -/

/-- `models.FileInfo`: one catalog record per tracked path. -/
structure FileInfo where
  path : FPath
  size : Nat
  modTime : Nat
  hash : Bytes
  chunkRefs : List Nat
  isDeleted : Bool
deriving Repr, DecidableEq

/-- `models.ChunkInfo`: one catalog record per sealed chunk.  `filename`
models `chunk_%06d.gz`, a name derived injectively from the numeric ID. -/
structure ChunkInfo where
  id : Nat
  filename : Nat
  size : Nat
  hash : Bytes
  compressedSize : Nat
deriving Repr, DecidableEq

/-- `models.BackupMetadata`: the catalog. -/
structure BackupMetadata where
  version : String
  createdAt : Nat
  updatedAt : Nat
  files : List (FPath × FileInfo)
  chunks : List ChunkInfo
deriving Repr, DecidableEq

/-- `models.FileChange`: one reconciliation event. -/
structure FileChange where
  path : FPath
  operation : String
  fileInfo : Option FileInfo
deriving Repr, DecidableEq

/-! ## Metadata catalog (`internal/metadata/manager.go`, `file_actions.go`) -/

/-- `metadata.NewManager`'s fresh catalog (empty maps, version "1.0"). -/
def NewMetadata (createdAt : Nat) : BackupMetadata :=
  { version := "1.0", createdAt := createdAt, updatedAt := 0, files := [], chunks := [] }

/-- `Manager.GetFileInfo`. -/
def GetFileInfo (m : BackupMetadata) (p : FPath) : Option FileInfo :=
  getKV m.files p

/-- `Manager.UpdateFileInfo` (`file_actions.go`): insert-or-replace. -/
def UpdateFileInfo (m : BackupMetadata) (p : FPath) (info : FileInfo) : BackupMetadata :=
  { m with files := putKV m.files p info }

/-- `Manager.MarkFileDeleted` (`file_actions.go`): tombstone the record if
present, otherwise do nothing. -/
def MarkFileDeleted (m : BackupMetadata) (p : FPath) : BackupMetadata :=
  match getKV m.files p with
  | some info => { m with files := putKV m.files p { info with isDeleted := true } }
  | none => m

/-- `Manager.AddChunk` (`file_actions.go`): append to the chunk list. -/
def AddChunk (m : BackupMetadata) (c : ChunkInfo) : BackupMetadata :=
  { m with chunks := m.chunks ++ [c] }

/-- `filepath.Rel(root, p)` for a path under `root`. -/
def relOf (root p : FPath) : FPath := p.drop root.length

/-- The `FileInfo` the walk callback of `Manager.DetectChanges` builds for
one visited file. -/
def walkInfo (rel : FPath) (e : FsEntry) : FileInfo :=
  { path := rel, size := e.content.length, modTime := e.modTime,
    hash := sha256 e.content, chunkRefs := [], isDeleted := false }

/-- The `currentFiles` map of `Manager.DetectChanges`: every stat-able,
readable, non-directory file under the watch root, keyed by relative
path. -/
def walkTree (fs : Fsys) (root : FPath) : List (FPath × FileInfo) :=
  fs.filterMap fun pe =>
    if pe.2.isDir then none
    else if pe.1.take root.length = root then
      if pe.2.readable then some (relOf root pe.1, walkInfo (relOf root pe.1) pe.2)
      else none
    else none

/-- `Manager.DetectChanges` (reconcile): CREATE / MODIFY over the walked
files, then DELETE over the catalog's live records missing from the walk. -/
def DetectChanges (m : BackupMetadata) (fs : Fsys) (root : FPath) : List FileChange :=
  let cur := walkTree fs root
  (cur.filterMap fun pc =>
    match getKV m.files pc.1 with
    | some stored =>
        if ¬stored.isDeleted ∧ (stored.hash ≠ pc.2.hash ∨ stored.modTime ≠ pc.2.modTime) then
          some { path := pc.1, operation := "MODIFY", fileInfo := some pc.2 }
        else none
    | none => some { path := pc.1, operation := "CREATE", fileInfo := some pc.2 }) ++
  (m.files.filterMap fun ps =>
    if ¬ps.2.isDeleted ∧ getKV cur ps.1 = none then
      some { path := ps.1, operation := "DELETE", fileInfo := none }
    else none)

/-! ## Backup orchestrator (`internal/backup/engine.go`) -/

/-- The orchestrator's environment: the watched tree, the codec, the watch
root, and the chunk-file writes the OS rejects (by chunk id). -/
structure Env where
  fs : Fsys
  codec : Codec
  watchPath : FPath
  writeFails : List Nat

/-- The orchestrator's state: in-memory catalog, chunker counter, the
chunk files written to the backup directory (keyed by filename, which is
the numeric id), and the durably persisted catalog. -/
structure EngineState where
  meta : BackupMetadata
  chunker : Chunker
  chunkFiles : List (Nat × Bytes)
  persisted : Option BackupMetadata

/-- `Manager.SaveMetadata`: stamp `updatedAt`, then atomically persist the
whole catalog. -/
def SaveMetadata (st : EngineState) (now : Nat) : EngineState :=
  let m := { st.meta with updatedAt := now }
  { st with meta := m, persisted := some m }

/-- One iteration of the classification loop of `Engine.handleChanges`:
CREATE/MODIFY upserts the record and queues the full path for packing;
DELETE tombstones; anything else is ignored. -/
def applyChange (watchPath : FPath) (acc : BackupMetadata × List FPath) (ch : FileChange) :
    BackupMetadata × List FPath :=
  if ch.operation = "CREATE" ∨ ch.operation = "MODIFY" then
    match ch.fileInfo with
    | some info => (UpdateFileInfo acc.1 ch.path info, acc.2 ++ [watchPath ++ ch.path])
    | none => acc
  else if ch.operation = "DELETE" then (MarkFileDeleted acc.1 ch.path, acc.2)
  else acc

/-- The classification loop of `Engine.handleChanges` over a whole batch. -/
def applyChanges (watchPath : FPath) (m : BackupMetadata) (changes : List FileChange) :
    BackupMetadata × List FPath :=
  changes.foldl (applyChange watchPath) (m, [])

/-- One step of the chunk-reference update loop inside
`Engine.createBackupChunks`: look the contained file's record up by its
watch-relative path and append the chunk id to its `chunkRefs`. -/
def refsStep (watchPath : FPath) (cid : Nat) (m : BackupMetadata) (cfi : ChunkFileInfo) :
    BackupMetadata :=
  let rel := relOf watchPath cfi.path
  match GetFileInfo m rel with
  | some stored =>
      UpdateFileInfo m rel { stored with chunkRefs := stored.chunkRefs ++ [cid] }
  | none => m

/-- The body of the per-chunk loop of `Engine.createBackupChunks`:
compress, write the chunk file, append the ChunkRecord, then append the
chunk id to each contained file's `chunkRefs`.  Once an error occurred the
remaining chunks are not processed (the Go loop returns). -/
def processChunk (env : Env) (acc : EngineState × Option String) (chunk : ChunkData) :
    EngineState × Option String :=
  match acc.2 with
  | some _ => acc
  | none =>
    let st := acc.1
    match env.codec.compress chunk.data with
    | .error _ => (st, some "failed to compress chunk")
    | .ok compressed =>
      if chunk.id ∈ env.writeFails then (st, some "failed to write chunk file")
      else
        let st := { st with chunkFiles := putKV st.chunkFiles chunk.id compressed }
        let ci : ChunkInfo :=
          { id := chunk.id, filename := chunk.id, size := chunk.data.length,
            hash := chunk.hash, compressedSize := compressed.length }
        let st := { st with meta := AddChunk st.meta ci }
        let m2 := chunk.files.foldl (refsStep env.watchPath chunk.id) st.meta
        ({ st with meta := m2 }, none)

/-- `Engine.createBackupChunks`: pack the queued paths, then process each
chunk in order, stopping at the first failure. -/
def createBackupChunks (env : Env) (st : EngineState) (files : List FPath) :
    EngineState × Option String :=
  let cr := CreateChunks env.fs st.chunker files
  cr.1.foldl (processChunk env) ({ st with chunker := cr.2 }, none)

/-- `Engine.handleChanges`: classify the batch, pack and persist chunks if
any path was queued, and save the catalog only when that succeeded. -/
def handleChanges (env : Env) (st : EngineState) (changes : List FileChange) (now : Nat) :
    EngineState × Option String :=
  let p := applyChanges env.watchPath st.meta changes
  let st1 := { st with meta := p.1 }
  let r := if 0 < p.2.length then createBackupChunks env st1 p.2 else (st1, none)
  match r.2 with
  | some e => (r.1, some e)
  | none => (SaveMetadata r.1 now, none)

/-- `Engine.PerformFullBackup`: reconcile, then one batch through
`handleChanges`. -/
def PerformFullBackup (env : Env) (st : EngineState) (now : Nat) :
    EngineState × Option String :=
  handleChanges env st (DetectChanges st.meta env.fs env.watchPath) now

/-! ## Restore engine (`internal/restore/engine.go`) -/

/-- The `chunkMap` of `Engine.RestoreAll`: a Go map built by iterating the
chunk list (a duplicated id keeps the last record). -/
def toChunkMap (chunks : List ChunkInfo) : List (Nat × ChunkInfo) :=
  chunks.foldl (fun m c => putKV m c.id c) []

/-- `Engine.ValidateBackup` over the backup directory `store` (chunk files
keyed by filename): the first chunk whose backing file is missing, reported
as the fatal validation error; `none` when all chunk files exist. -/
def ValidateBackup (store : List (Nat × Bytes)) (meta : BackupMetadata) : Option Nat :=
  meta.chunks.findSome? fun c =>
    if getKV store c.filename = none then some c.filename else none

/-- `Engine.restoreFile`: for each `chunkRefs` entry in order, look the
chunk up, read and decompress its file, verify the chunk hash, and append
the WHOLE decompressed chunk payload to the output (the Go code's comment:
"Find file data within chunk (this is simplified ...)" — no per-file range
is consulted).  Returns the bytes written to the target file. -/
def restoreFile (codec : Codec) (store : List (Nat × Bytes))
    (chunkMap : List (Nat × ChunkInfo)) (fi : FileInfo) : Except String Bytes :=
  fi.chunkRefs.foldl (fun acc cid =>
    match acc with
    | .error e => .error e
    | .ok data =>
      match getKV chunkMap cid with
      | none => .error "chunk not found"
      | some ci =>
        match getKV store ci.filename with
        | none => .error "failed to read chunk file"
        | some compressed =>
          match codec.decompress compressed with
          | .error _ => .error "failed to decompress chunk"
          | .ok chunkData =>
            if CalculateDataHash chunkData ≠ ci.hash then
              .error "chunk hash verification failed"
            else .ok (data ++ chunkData)) (.ok [])

/-- `Engine.RestoreAll`: validate (aborting the whole run on a missing
chunk file, the error carrying that chunk's filename), then restore each
non-tombstoned record best-effort: a failing file is logged and skipped.
The result lists (target-relative path, restored bytes, restored modTime)
per successfully restored file. -/
def RestoreAll (codec : Codec) (store : List (Nat × Bytes)) (meta : BackupMetadata) :
    Except Nat (List (FPath × Bytes × Nat)) :=
  match ValidateBackup store meta with
  | some missing => .error missing
  | none =>
    let chunkMap := toChunkMap meta.chunks
    .ok (meta.files.filterMap fun pf =>
      if pf.2.isDeleted then none
      else
        match restoreFile codec store chunkMap pf.2 with
        | .error _ => none
        | .ok data => some (pf.2.path, data, pf.2.modTime))

/-! ## Debounced change coordinator (`internal/watcher`)

`Watcher.debouncedSend` keeps one pending timer per path; a new
notification stops the existing timer and arms a fresh 500 ms one whose
callback classifies the LAST notification's flags and emits one event.
The model is a discrete-time state machine: `processEvent` is the
notification handler, `fireTimer p t` is the timer callback running at
time `t` (`time.AfterFunc` semantics: it runs only if still armed and its
deadline has passed; a replaced timer never fires). -/

/-- One raw fsnotify notification: the path and its operation flag bits. -/
structure NotifyEvent where
  name : FPath
  hasCreate : Bool
  hasWrite : Bool
  hasRemove : Bool
deriving Repr, DecidableEq

/-- The flag classification inside `Watcher.processEvent`'s callback:
Create, then Write, then Remove, in the switch's order; unrecognized flags
emit nothing. -/
def classifyOp (e : NotifyEvent) : Option String :=
  if e.hasCreate then some "CREATE"
  else if e.hasWrite then some "MODIFY"
  else if e.hasRemove then some "DELETE"
  else none

/-- `debounceInterval`: the 500 ms debounce window. -/
def debounceMs : Nat := 500

/-- The coordinator's observable state: the timer table (`w.debouncer`)
mapping a path to its deadline and the notification it will classify, and
the events emitted on the change channel so far (path, operation, emission
time). -/
structure DebounceState where
  pending : List (FPath × Nat × NotifyEvent)
  emitted : List (FPath × String × Nat)
deriving Repr, DecidableEq

/-- `Watcher.processEvent` at time `now`: stop any existing timer for the
path and arm a fresh one due at `now + 500`, capturing this notification. -/
def processEvent (s : DebounceState) (e : NotifyEvent) (now : Nat) : DebounceState :=
  { s with pending := putKV s.pending e.name (now + debounceMs, e) }

/-- The timer callback for `p` running at time `now`: if the path's timer
is still armed and due, remove it and emit the captured notification's
classification (nothing for unrecognized flags). -/
def fireTimer (s : DebounceState) (p : FPath) (now : Nat) : DebounceState :=
  match getKV s.pending p with
  | none => s
  | some (deadline, e) =>
    if deadline ≤ now then
      let s1 : DebounceState :=
        { pending := s.pending.filter (fun q => q.1 ≠ p), emitted := s.emitted }
      match classifyOp e with
      | some op => { s1 with emitted := s1.emitted ++ [(e.name, op, now)] }
      | none => s1
    else s

/-- A step of the coordinator's observable behaviour: a notification
arriving, or a path's armed timer firing. -/
inductive DebAction where
  | notify (e : NotifyEvent) (t : Nat)
  | fire (p : FPath) (t : Nat)
deriving Repr, DecidableEq

/-- Run a trace of coordinator steps. -/
def runDeb (s : DebounceState) : List DebAction → DebounceState
  | [] => s
  | .notify e t :: rest => runDeb (processEvent s e t) rest
  | .fire p t :: rest => runDeb (fireTimer s p t) rest

/-- The empty coordinator state. -/
def deb0 : DebounceState := { pending := [], emitted := [] }

/-! ## The claim's packer-sealing rule (C5)

`createChunksByClaim` transcribes the claim's sentence, NOT the source:
"processing input paths in order, the packer seals the current chunk
exactly when adding the next READABLE file would exceed the fixed
chunk-size bound and the current chunk is non-empty, then opens a new
chunk for that file".  It is compared against `CreateChunks` (from the
source) to settle the refinement. -/

/-- One step of the claim's sealing rule: only readable files participate;
sealing is triggered exactly by a readable file that would overflow a
non-empty chunk, and that file then goes into the freshly opened chunk. -/
def claimStep (fs : Fsys) (st : PackState) (p : FPath) : PackState :=
  match getKV fs p with
  | none => st
  | some e =>
    if e.isDir then st
    else if ¬e.readable then st
    else
      let st1 :=
        if st.currentSize + e.content.length > ChunkSize ∧ 0 < st.current.files.length then
          { chunks := st.chunks ++ [{ st.current with hash := CalculateDataHash st.current.data }],
            current := { id := st.nextID, data := [], files := [], hash := [] },
            currentSize := 0,
            nextID := st.nextID + 1 }
        else st
      { st1 with
        current :=
          { st1.current with
            files := st1.current.files ++
              [{ path := p, offset := st1.current.data.length,
                 size := e.content.length, hash := sha256 e.content }],
            data := st1.current.data ++ e.content },
        currentSize := st1.currentSize + e.content.length }

/-- The packer as the claim's words describe it (see `claimStep`). -/
def createChunksByClaim (fs : Fsys) (c : Chunker) (files : List FPath) :
    List ChunkData × Chunker :=
  let st0 : PackState :=
    { chunks := [], current := { id := c.chunkID, data := [], files := [], hash := [] },
      currentSize := 0, nextID := c.chunkID + 1 }
  let st := files.foldl (claimStep fs) st0
  let out :=
    if 0 < st.current.files.length then
      st.chunks ++ [{ st.current with hash := CalculateDataHash st.current.data }]
    else st.chunks
  (out, ⟨st.nextID⟩)

/-! ## Proof-side helper definitions -/

/-- The effect of one `applyChange` step on the record stored at the
change's own path (proof helper for the phase-1 characterization). -/
def applyOne (old : Option FileInfo) (ch : FileChange) : Option FileInfo :=
  if ch.operation = "CREATE" ∨ ch.operation = "MODIFY" then
    match ch.fileInfo with
    | some info => some info
    | none => old
  else if ch.operation = "DELETE" then
    match old with
    | some s => some { s with isDeleted := true }
    | none => old
  else old

/-- The fields of a catalog record that `DetectChanges` consults (hash,
modification time, tombstone flag): chunk-reference updates leave them
unchanged. -/
def coreOf (o : Option FileInfo) : Option (Bytes × Nat × Bool) :=
  o.map fun s => (s.hash, s.modTime, s.isDeleted)

/-- Per-chunk well-formedness: every recorded range lies inside the chunk
and hashes to its recorded per-file hash. -/
def chunkOK (ch : ChunkData) : Prop :=
  ∀ fi ∈ ch.files, fi.offset + fi.size ≤ ch.data.length ∧
    CalculateDataHash ((ch.data.drop fi.offset).take fi.size) = fi.hash

/-- The packer-loop invariant behind C4: every sealed chunk and the chunk
in progress are well-formed. -/
def packOK (st : PackState) : Prop :=
  (∀ ch ∈ st.chunks, chunkOK ch) ∧ chunkOK st.current

/-- The packer-loop invariant behind C2: sealed chunk IDs are strictly
increasing, bounded below by `lo` and above by the in-progress chunk's ID,
which stays below the counter. -/
def idInv (lo : Nat) (st : PackState) : Prop :=
  List.Chain' (· < ·) (st.chunks.map ChunkData.id) ∧
  (∀ ch ∈ st.chunks, lo ≤ ch.id ∧ ch.id < st.current.id) ∧
  lo ≤ st.current.id ∧ st.current.id < st.nextID

/-! ## Concrete fixtures for closed theorems and witnesses -/

/-- A watched tree with `w/a` = bytes `[1, 2]` and `w/b` = bytes `[3]`. -/
def fsAB : Fsys :=
  [ (["w", "a"], { isDir := false, readable := true, content := [1, 2], modTime := 10 }),
    (["w", "b"], { isDir := false, readable := true, content := [3], modTime := 20 }) ]

/-- The backup environment over `fsAB` (identity codec, no write failures). -/
def envAB : Env := { fs := fsAB, codec := idCodec, watchPath := ["w"], writeFails := [] }

/-- A freshly initialized engine (empty catalog, fresh chunker). -/
def est0 : EngineState :=
  { meta := NewMetadata 0, chunker := NewChunker, chunkFiles := [], persisted := none }

/-- One full backup of `fsAB` from the fresh state. -/
def run1 : EngineState × Option String := PerformFullBackup envAB est0 7

/-- The tree after adding `w/c` = bytes `[5]`. -/
def fsABC : Fsys :=
  fsAB ++ [(["w", "c"], { isDir := false, readable := true, content := [5], modTime := 30 })]

/-- The engine after a restart: the catalog and chunk files of `run1` are
loaded back, but `NewChunker` resets the ID counter to 1. -/
def stRestart : EngineState :=
  { meta := run1.1.meta, chunker := NewChunker, chunkFiles := run1.1.chunkFiles,
    persisted := run1.1.persisted }

/-- The first backup batch after the restart (new file `w/c`). -/
def run2 : EngineState × Option String :=
  PerformFullBackup { envAB with fs := fsABC } stRestart 9

/-- The catalog of `run1` with path `a` tombstoned. -/
def metaT : BackupMetadata := MarkFileDeleted run1.1.meta ["a"]

/-- Restore fixture: records for two files, each in its own chunk. -/
def faInfo : FileInfo :=
  { path := ["fa"], size := 2, modTime := 10, hash := sha256 [1, 2], chunkRefs := [1],
    isDeleted := false }

def fbInfo : FileInfo :=
  { path := ["fb"], size := 1, modTime := 20, hash := sha256 [3], chunkRefs := [2],
    isDeleted := false }

/-- Restore fixture catalog: chunk 1 holds `fa`'s bytes, chunk 2 `fb`'s. -/
def metaC3 : BackupMetadata :=
  { version := "1.0", createdAt := 0, updatedAt := 0,
    files := [(["fa"], faInfo), (["fb"], fbInfo)],
    chunks := [ { id := 1, filename := 1, size := 2, hash := sha256 [1, 2], compressedSize := 2 },
                { id := 2, filename := 2, size := 1, hash := sha256 [3], compressedSize := 1 } ] }

/-- The backup directory for `metaC3` with chunk 2's backing file deleted. -/
def storeC3 : List (Nat × Bytes) := [(1, [1, 2])]

/-- A path for debouncer scenarios. -/
def pDeb : FPath := ["w", "a"]

/-- A Write (MODIFY) notification for `pDeb`. -/
def evW : NotifyEvent := { name := pDeb, hasCreate := false, hasWrite := true, hasRemove := false }

/-- A Remove (DELETE) notification for `pDeb`. -/
def evD : NotifyEvent := { name := pDeb, hasCreate := false, hasWrite := false, hasRemove := true }

/-- Packer scenario paths. -/
def paP : FPath := ["w", "a"]

def pbP : FPath := ["w", "b"]

def pxP : FPath := ["w", "x"]

/-- The packer counterexample tree: a readable 2 MiB file, a stat-able but
unreadable 4 MiB file, then a readable 2 MiB file. -/
def fsXbig : Fsys :=
  [ (paP, ⟨false, true, List.replicate 2097152 0, 1⟩),
    (pxP, ⟨false, false, List.replicate 4194304 1, 2⟩),
    (pbP, ⟨false, true, List.replicate 2097152 2, 3⟩) ]

/-- The 2 MiB + 4 MiB scenario tree. -/
def fs2and4 : Fsys :=
  [ (paP, ⟨false, true, List.replicate 2097152 0, 1⟩),
    (pbP, ⟨false, true, List.replicate 4194304 1, 2⟩) ]

/-! # Theorems -/

set_option maxRecDepth 1000000

/-! ## Association-list lemmas -/

theorem getKV_cons_self {K V : Type} [DecidableEq K] (k : K) (v : V) (l : List (K × V)) :
    getKV ((k, v) :: l) k = some v := by simp [getKV]

theorem getKV_cons_ne {K V : Type} [DecidableEq K] (k q : K) (v : V) (l : List (K × V))
    (h : q ≠ k) : getKV ((k, v) :: l) q = getKV l q := by simp [getKV, h]

theorem getKV_putKV_self {K V : Type} [DecidableEq K] (l : List (K × V)) (k : K) (v : V) :
    getKV (putKV l k v) k = some v := by
  induction l with
  | nil => simp [putKV, getKV]
  | cons kv rest ih =>
      by_cases h : k = kv.1
      · subst h; simp [putKV, getKV]
      · simp [putKV, getKV, h, ih]

theorem getKV_putKV_ne {K V : Type} [DecidableEq K] (l : List (K × V)) (k q : K) (v : V)
    (h : q ≠ k) : getKV (putKV l k v) q = getKV l q := by
  induction l with
  | nil => simp [putKV, getKV, h]
  | cons kv rest ih =>
      by_cases hk : k = kv.1
      · subst hk
        simp only [putKV, if_pos rfl]
        simp [getKV, h]
      · simp only [putKV, if_neg hk]
        by_cases hq : q = kv.1
        · simp [getKV, hq]
        · simp [getKV, hq, ih]

theorem getKV_eq_none_iff {K V : Type} [DecidableEq K] (l : List (K × V)) (k : K) :
    getKV l k = none ↔ k ∉ l.map Prod.fst := by
  induction l with
  | nil => simp [getKV]
  | cons kv rest ih =>
      by_cases h : k = kv.1
      · subst h; simp [getKV]
      · simp [getKV, h, ih]

theorem getKV_of_mem {K V : Type} [DecidableEq K] {l : List (K × V)} {k : K} {v : V}
    (hn : keysNodup l) (hm : (k, v) ∈ l) : getKV l k = some v := by
  induction l with
  | nil => simp at hm
  | cons kv rest ih =>
      rcases List.mem_cons.mp hm with h | h
      · subst h; simp [getKV]
      · have hne : k ≠ kv.1 := by
          intro he
          have : kv.1 ∈ rest.map Prod.fst := he ▸ List.mem_map_of_mem Prod.fst h
          exact (List.nodup_cons.mp hn).1 this
        rw [getKV_cons_ne _ _ _ _ hne]
        exact ih (List.nodup_cons.mp hn).2 h

theorem mem_putKV {K V : Type} [DecidableEq K] {l : List (K × V)} {k : K} {v : V} {e : K × V}
    (he : e ∈ putKV l k v) : e.1 = k ∨ e ∈ l := by
  induction l with
  | nil =>
      simp only [putKV, List.mem_singleton] at he
      left; rw [he]
  | cons r rs ih =>
      rcases r with ⟨a, b⟩
      by_cases hk : k = a
      · subst hk
        simp only [putKV, if_pos rfl] at he
        rcases List.mem_cons.mp he with h | h
        · left; rw [h]
        · right; exact List.mem_cons_of_mem _ h
      · simp only [putKV, if_neg hk] at he
        rcases List.mem_cons.mp he with h | h
        · right; rw [h]; exact List.mem_cons_self _ _
        · rcases ih h with h' | h'
          · left; exact h'
          · right; exact List.mem_cons_of_mem _ h'

theorem keysNodup_putKV {K V : Type} [DecidableEq K] (l : List (K × V)) (k : K) (v : V)
    (hn : keysNodup l) : keysNodup (putKV l k v) := by
  induction l with
  | nil => simp [putKV, keysNodup]
  | cons r rs ih =>
      rcases r with ⟨a, b⟩
      have hn' : (a :: rs.map Prod.fst).Nodup := hn
      have h1 := List.nodup_cons.mp hn'
      by_cases hk : k = a
      · subst hk
        simpa [putKV, keysNodup] using hn
      · have h2 := ih h1.2
        simp only [putKV, if_neg hk]
        show (a :: (putKV rs k v).map Prod.fst).Nodup
        refine List.nodup_cons.mpr ⟨?_, h2⟩
        intro hmem
        rcases List.mem_map.mp hmem with ⟨e, hemem, hfst⟩
        rcases mem_putKV hemem with h' | h'
        · exact hk (by rw [← h', hfst])
        · exact h1.1 (hfst ▸ List.mem_map_of_mem Prod.fst h')

/-! ## C10: tombstoning an untracked path is a no-op -/

/-- Claim C10 — `MarkFileDeleted` on a path without a catalog record leaves
the catalog unchanged, and a DELETE event for an untracked path run through
`handleChanges` leaves the file map unchanged. -/
theorem C10_tombstone_untracked_noop :
    (∀ (m : BackupMetadata) (p : FPath), getKV m.files p = none → MarkFileDeleted m p = m) ∧
    (∀ (env : Env) (st : EngineState) (p : FPath) (now : Nat),
      getKV st.meta.files p = none →
      ((handleChanges env st [{ path := p, operation := "DELETE", fileInfo := none }] now).1).meta.files
        = st.meta.files) := by
  constructor
  · intro m p h
    simp [MarkFileDeleted, h]
  · intro env st p now h
    simp [handleChanges, applyChanges, applyChange, MarkFileDeleted, h, SaveMetadata]

/-! ## C8: the debounce contract -/

/-- Claim C8 counterexample — a DELETE (Remove) notification is NOT emitted
immediately: after `notify` at time 0 nothing is emitted, a timer fired
before the 500 ms deadline emits nothing, and DELETE appears only when the
timer fires at (or after) the deadline. -/
theorem C8_delete_not_immediate :
    (runDeb deb0 [.notify evD 0]).emitted = [] ∧
    (runDeb deb0 [.notify evD 0, .fire pDeb 499]).emitted = [] ∧
    (runDeb deb0 [.notify evD 0, .fire pDeb 500]).emitted = [(pDeb, "DELETE", 500)] :=
  ⟨rfl, rfl, rfl⟩

/-- Claim C8 (amended) — every notification (DELETE included) cancels and
restarts the path's 500 ms timer; a fire before the new deadline is a
no-op; a fire at or after the deadline emits exactly one event classified
from the last notification's flags; five MODIFY notifications within
500 ms collapse into exactly one emitted ChangeEvent. -/
theorem C8_debounce_amended :
    (∀ (s : DebounceState) (e : NotifyEvent) (t : Nat),
      getKV (processEvent s e t).pending e.name = some (t + debounceMs, e)) ∧
    (∀ (s : DebounceState) (e : NotifyEvent) (t t2 : Nat), t2 < t + debounceMs →
      fireTimer (processEvent s e t) e.name t2 = processEvent s e t) ∧
    (∀ (s : DebounceState) (e : NotifyEvent) (t t2 : Nat), t + debounceMs ≤ t2 →
      (fireTimer (processEvent s e t) e.name t2).emitted =
        s.emitted ++ (match classifyOp e with
          | some op => [(e.name, op, t2)]
          | none => [])) ∧
    (runDeb deb0 [.notify evW 0, .notify evW 100, .notify evW 200, .notify evW 300,
        .notify evW 400, .fire pDeb 900]).emitted = [(pDeb, "MODIFY", 900)] := by
  refine ⟨?_, ?_, ?_, rfl⟩
  · intro s e t
    simp [processEvent, getKV_putKV_self]
  · intro s e t t2 h
    simp [fireTimer, processEvent, getKV_putKV_self, Nat.not_le.mpr h]
  · intro s e t t2 h
    simp only [fireTimer, processEvent, getKV_putKV_self]
    rw [if_pos h]
    cases hc : classifyOp e <;> simp [hc]

/-! ## C3: a missing chunk file and per-file restore semantics -/

/-- Claim C3 counterexample — with chunk 2's backing file missing,
`ValidateBackup` reports chunk 2 and `RestoreAll` aborts the entire run
with that error, restoring nothing, although file `fa` (which depends only
on the present chunk 1) would restore fine on its own. -/
theorem C3_missing_chunk_aborts_run :
    ValidateBackup storeC3 metaC3 = some 2 ∧
    RestoreAll idCodec storeC3 metaC3 = .error 2 ∧
    restoreFile idCodec storeC3 (toChunkMap metaC3.chunks) faInfo = .ok [1, 2] :=
  ⟨rfl, rfl, rfl⟩

/-- Claim C3 (amended) — a chunk with a missing backing file makes
`ValidateBackup` report a missing chunk and `RestoreAll` abort with that
validation error before restoring any file; when the run does proceed
(`RestoreAll` returns a result list), restoration is best-effort per file:
every non-tombstoned record whose `restoreFile` succeeds appears in the
result, regardless of other files failing. -/
theorem C3_validate_reports_and_perfile_skip (codec : Codec) (store : List (Nat × Bytes))
    (meta : BackupMetadata) :
    (∀ c ∈ meta.chunks, getKV store c.filename = none →
      ∃ mid, ValidateBackup store meta = some mid ∧
        RestoreAll codec store meta = .error mid) ∧
    (∀ outs, RestoreAll codec store meta = .ok outs →
      ∀ (p : FPath) (fi : FileInfo) (d : Bytes), (p, fi) ∈ meta.files →
        fi.isDeleted = false →
        restoreFile codec store (toChunkMap meta.chunks) fi = .ok d →
        (fi.path, d, fi.modTime) ∈ outs) := by
  constructor
  · intro c hc hmiss
    cases hval : ValidateBackup store meta with
    | none =>
        exfalso
        have hall := List.findSome?_eq_none_iff.mp hval c hc
        rw [hmiss] at hall
        simp at hall
    | some mid =>
        exact ⟨mid, rfl, by simp [RestoreAll, hval]⟩
  · intro outs houts p fi d hmem hdel hres
    cases hval : ValidateBackup store meta with
    | some mid => simp [RestoreAll, hval] at houts
    | none =>
        simp only [RestoreAll, hval, Except.ok.injEq] at houts
        subst houts
        exact List.mem_filterMap.mpr ⟨(p, fi), hmem, by simp [hdel, hres]⟩

/-! ## C1: the restore path concatenates whole chunks -/

/-- Claim C1 (code evaluation at the failing input) — packing `w/a` (bytes
`[1, 2]`) and `w/b` (bytes `[3]`) puts both files into one chunk with raw
bytes `[1, 2, 3]`; `RestoreAll` then writes the WHOLE chunk payload for
each file, so restored `a` is `[1, 2, 3]`, not the original `[1, 2]`
(timestamps are restored as recorded). -/
theorem C1_restore_not_roundtrip :
    RestoreAll idCodec run1.1.chunkFiles run1.1.meta =
      .ok [(["a"], [1, 2, 3], 10), (["b"], [1, 2, 3], 20)] ∧
    getKV fsAB ["w", "a"] = some ⟨false, true, [1, 2], 10⟩ ∧
    ([1, 2, 3] : Bytes) ≠ [1, 2] :=
  ⟨rfl, rfl, by decide⟩

/-! ## C2: chunk-ID reuse after a restart -/

/-- Claim C2 counterexample — after `run1` the catalog's chunk list holds
ID 1; a restart constructs `NewChunker` (counter 1) over the loaded
catalog, and the next batch appends a chunk with ID 1 again — not strictly
greater than the IDs already present — overwriting chunk file 1 (old
content `[1, 2, 3]`, new content `[5]`). -/
theorem C2_id_reused_after_restart :
    run1.1.meta.chunks.map ChunkInfo.id = [1] ∧
    run2.1.meta.chunks.map ChunkInfo.id = [1, 1] ∧
    getKV run1.1.chunkFiles 1 = some [1, 2, 3] ∧
    getKV run2.1.chunkFiles 1 = some [5] :=
  ⟨rfl, rfl, rfl, rfl⟩

/-! ## C6 counterexample: a tombstoned path present in the walk -/

/-- Claim C6 counterexample — path `a` has a tombstoned catalog record and
IS present in the walk, yet `DetectChanges` yields NO event at all (the
claim demands CREATE): the walked-file branch requires a live record for
MODIFY and emits nothing for a tombstoned one. -/
theorem C6_tombstoned_walked_no_event :
    getKV metaT.files ["a"] =
      some { path := ["a"], size := 2, modTime := 10, hash := sha256 [1, 2],
             chunkRefs := [1], isDeleted := true } ∧
    getKV (walkTree fsAB ["w"]) ["a"] = some (walkInfo ["a"] ⟨false, true, [1, 2], 10⟩) ∧
    DetectChanges metaT fsAB ["w"] = [] :=
  ⟨rfl, rfl, rfl⟩

/-! ## C2 (amended): IDs strictly increase within one chunker lifetime -/

theorem chain'_append_singleton (l : List Nat) (x : Nat)
    (hc : List.Chain' (· < ·) l) (hlt : ∀ y ∈ l, y < x) :
    List.Chain' (· < ·) (l ++ [x]) := by
  rw [List.chain'_append]
  refine ⟨hc, List.chain'_singleton x, ?_⟩
  intro y hy z hz
  have hz' : x = z := by simpa using hz
  subst hz'
  exact hlt y (List.mem_of_mem_getLast? hy)

theorem seal_ids (lo : Nat) (st : PackState) (h : idInv lo st) :
    List.Chain' (· < ·)
      ((st.chunks ++ [{ st.current with hash := CalculateDataHash st.current.data }]).map
        ChunkData.id) ∧
    ∀ ch ∈ st.chunks ++ [{ st.current with hash := CalculateDataHash st.current.data }],
      lo ≤ ch.id ∧ ch.id < st.nextID := by
  obtain ⟨hch, hbnd, hlo, hcur⟩ := h
  constructor
  · rw [List.map_append]
    apply chain'_append_singleton _ _ hch
    intro y hy
    rcases List.mem_map.mp hy with ⟨ch, hmem, hid⟩
    exact hid ▸ (hbnd ch hmem).2
  · intro ch hmem
    rcases List.mem_append.mp hmem with h' | h'
    · exact ⟨(hbnd ch h').1, Nat.lt_trans (hbnd ch h').2 hcur⟩
    · have : ch = { st.current with hash := CalculateDataHash st.current.data } :=
        List.mem_singleton.mp h'
      subst this
      exact ⟨hlo, hcur⟩

theorem chunkStep_idInv (fs : Fsys) (p : FPath) (lo : Nat) (st : PackState)
    (h : idInv lo st) : idInv lo (chunkStep fs st p) := by
  obtain ⟨hch, hbnd, hlo, hcur⟩ := h
  unfold chunkStep
  split
  next => exact ⟨hch, hbnd, hlo, hcur⟩
  next e _ =>
    by_cases hd : e.isDir = true
    · rw [if_pos hd]
      exact ⟨hch, hbnd, hlo, hcur⟩
    · rw [if_neg hd]
      by_cases hA : st.currentSize + e.content.length > ChunkSize
      · rw [if_pos hA]
        by_cases hB : 0 < st.current.files.length
        · rw [if_pos hB]
          have hs := seal_ids lo st ⟨hch, hbnd, hlo, hcur⟩
          have hnew : idInv lo
              { chunks := st.chunks ++
                  [{ st.current with hash := CalculateDataHash st.current.data }],
                current := { id := st.nextID, data := [], files := [], hash := [] },
                currentSize := 0, nextID := st.nextID + 1 } := by
            exact ⟨hs.1, fun ch hm => (hs.2 ch hm), Nat.le_trans hlo (Nat.le_of_lt hcur),
              Nat.lt_succ_self _⟩
          by_cases hr : e.readable = true
          · rw [if_pos hr]
            exact hnew
          · rw [if_neg hr]
            exact hnew
        · rw [if_neg hB]
          by_cases hr : e.readable = true
          · rw [if_pos hr]
            exact ⟨hch, hbnd, hlo, hcur⟩
          · rw [if_neg hr]
            exact ⟨hch, hbnd, hlo, hcur⟩
      · rw [if_neg hA]
        by_cases hr : e.readable = true
        · rw [if_pos hr]
          exact ⟨hch, hbnd, hlo, hcur⟩
        · rw [if_neg hr]
          exact ⟨hch, hbnd, hlo, hcur⟩

theorem foldl_idInv (fs : Fsys) (lo : Nat) :
    ∀ (files : List FPath) (st : PackState), idInv lo st →
      idInv lo (files.foldl (chunkStep fs) st)
  | [], _, h => h
  | p :: rest, st, h => foldl_idInv fs lo rest _ (chunkStep_idInv fs p lo st h)

/-- Claim C2 (amended) — `NewChunker` always starts its counter at 1 (it
is NOT seeded from the catalog, see the counterexample), but within a
single chunker lifetime IDs never repeat: every `CreateChunks` call
returns chunks with strictly increasing IDs, all at least the counter
before the call and strictly below the counter after it, so successive
calls through one chunker never reuse an ID. -/
theorem C2_ids_strictly_increasing_per_chunker (fs : Fsys) (c : Chunker)
    (files : List FPath) :
    List.Chain' (· < ·) ((CreateChunks fs c files).1.map ChunkData.id) ∧
    ∀ ch ∈ (CreateChunks fs c files).1,
      c.chunkID ≤ ch.id ∧ ch.id < ((CreateChunks fs c files).2).chunkID := by
  have h0 : idInv c.chunkID
      { chunks := [], current := { id := c.chunkID, data := [], files := [], hash := [] },
        currentSize := 0, nextID := c.chunkID + 1 } := by
    refine ⟨List.chain'_nil, ?_, Nat.le_refl _, Nat.lt_succ_self _⟩
    intro ch hch
    simp at hch
  have hF := foldl_idInv fs c.chunkID files _ h0
  simp only [CreateChunks]
  by_cases hseal :
      0 < (files.foldl (chunkStep fs)
        { chunks := [], current := { id := c.chunkID, data := [], files := [], hash := [] },
          currentSize := 0, nextID := c.chunkID + 1 }).current.files.length
  · rw [if_pos hseal]
    have hs := seal_ids c.chunkID _ hF
    exact ⟨hs.1, hs.2⟩
  · rw [if_neg hseal]
    obtain ⟨hch, hbnd, hlo, hcur⟩ := hF
    exact ⟨hch, fun ch hm => ⟨(hbnd ch hm).1, Nat.lt_trans (hbnd ch hm).2 hcur⟩⟩

/-! ## C4: recorded ranges extract correctly; boundary and integrity errors -/

theorem slice_append (d e : Bytes) (o s : Nat) (h : o + s ≤ d.length) :
    ((d ++ e).drop o).take s = (d.drop o).take s := by
  rw [List.drop_append_of_le_length (by omega)]
  rw [List.take_append_of_le_length (by rw [List.length_drop]; omega)]

theorem chunkOK_sethash (ch : ChunkData) (hs : Bytes) (h : chunkOK ch) :
    chunkOK { ch with hash := hs } := h

theorem packOK_seal (st : PackState) (h : packOK st) :
    packOK { chunks := st.chunks ++
               [{ st.current with hash := CalculateDataHash st.current.data }],
             current := { id := st.nextID, data := [], files := [], hash := [] },
             currentSize := 0, nextID := st.nextID + 1 } := by
  obtain ⟨hchunks, hcur⟩ := h
  constructor
  · intro ch hm
    rcases List.mem_append.mp hm with h' | h'
    · exact hchunks ch h'
    · have := List.mem_singleton.mp h'
      subst this
      exact chunkOK_sethash st.current _ hcur
  · intro fi hfi
    simp at hfi

theorem packOK_addfile (st : PackState) (p : FPath) (e : FsEntry) (h : packOK st) :
    packOK { st with
      current := { st.current with
        files := st.current.files ++
          [{ path := p, offset := st.current.data.length,
             size := e.content.length, hash := sha256 e.content }],
        data := st.current.data ++ e.content },
      currentSize := st.currentSize + e.content.length } := by
  obtain ⟨hchunks, hcur⟩ := h
  refine ⟨hchunks, ?_⟩
  intro fi hfi
  rcases List.mem_append.mp hfi with hold | hnew
  · obtain ⟨hb, hh⟩ := hcur fi hold
    constructor
    · rw [List.length_append]
      omega
    · rw [slice_append _ _ _ _ hb]
      exact hh
  · have := List.mem_singleton.mp hnew
    subst this
    constructor
    · rw [List.length_append]
    · rw [List.drop_left, List.take_length]
      rfl

theorem chunkStep_packOK (fs : Fsys) (p : FPath) (st : PackState)
    (h : packOK st) : packOK (chunkStep fs st p) := by
  unfold chunkStep
  split
  next => exact h
  next e _ =>
    by_cases hd : e.isDir = true
    · rw [if_pos hd]
      exact h
    · rw [if_neg hd]
      by_cases hA : st.currentSize + e.content.length > ChunkSize
      · rw [if_pos hA]
        by_cases hB : 0 < st.current.files.length
        · rw [if_pos hB]
          by_cases hr : e.readable = true
          · rw [if_pos hr]
            exact packOK_addfile _ p e (packOK_seal st h)
          · rw [if_neg hr]
            exact packOK_seal st h
        · rw [if_neg hB]
          by_cases hr : e.readable = true
          · rw [if_pos hr]
            exact packOK_addfile _ p e h
          · rw [if_neg hr]
            exact h
      · rw [if_neg hA]
        by_cases hr : e.readable = true
        · rw [if_pos hr]
          exact packOK_addfile _ p e h
        · rw [if_neg hr]
          exact h

theorem foldl_packOK (fs : Fsys) :
    ∀ (files : List FPath) (st : PackState), packOK st →
      packOK (files.foldl (chunkStep fs) st)
  | [], _, h => h
  | p :: rest, st, h => foldl_packOK fs rest _ (chunkStep_packOK fs p st h)

theorem createChunks_chunkOK (fs : Fsys) (c : Chunker) (files : List FPath) :
    ∀ ch ∈ (CreateChunks fs c files).1, chunkOK ch := by
  have h0 : packOK
      { chunks := [], current := { id := c.chunkID, data := [], files := [], hash := [] },
        currentSize := 0, nextID := c.chunkID + 1 } := by
    constructor
    · intro ch hch
      simp at hch
    · intro fi hfi
      simp at hfi
  have hF := foldl_packOK fs files _ h0
  simp only [CreateChunks]
  by_cases hseal :
      0 < (files.foldl (chunkStep fs)
        { chunks := [], current := { id := c.chunkID, data := [], files := [], hash := [] },
          currentSize := 0, nextID := c.chunkID + 1 }).current.files.length
  · rw [if_pos hseal]
    intro ch hm
    rcases List.mem_append.mp hm with h' | h'
    · exact hF.1 ch h'
    · have := List.mem_singleton.mp h'
      subst this
      exact chunkOK_sethash _ _ hF.2
  · rw [if_neg hseal]
    exact hF.1

theorem extract_ok_of_chunkOK (ch : ChunkData) (fi : ChunkFileInfo)
    (h : chunkOK ch) (hfi : fi ∈ ch.files) :
    ExtractFileFromChunk ch.data fi = .ok ((ch.data.drop fi.offset).take fi.size) := by
  obtain ⟨hb, hh⟩ := h fi hfi
  unfold ExtractFileFromChunk
  rw [if_neg (by omega)]
  simp [hh]

/-- Claim C4 — every per-file range the packer records extracts
successfully from the chunk's raw bytes and the extracted slice hashes to
the recorded per-file hash; `extract` fails with the boundary error
whenever `offset + length` exceeds the chunk length, and with the
integrity error whenever the recomputed hash of the slice differs from the
recorded one; concretely, mutating byte 0 of the packed chunk
`[1, 2, 3]` (holding `a = [1, 2]`, `b = [3]`) makes `a`'s extraction fail
integrity verification while the intact chunk extracts `a` fine. -/
theorem C4_extract_ranges_and_integrity :
    (∀ (fs : Fsys) (c : Chunker) (files : List FPath) (ch : ChunkData) (fi : ChunkFileInfo),
      ch ∈ (CreateChunks fs c files).1 → fi ∈ ch.files →
      ExtractFileFromChunk ch.data fi = .ok ((ch.data.drop fi.offset).take fi.size) ∧
      CalculateDataHash ((ch.data.drop fi.offset).take fi.size) = fi.hash) ∧
    (∀ (data : Bytes) (fi : ChunkFileInfo), fi.offset + fi.size > data.length →
      ExtractFileFromChunk data fi = .error "file data extends beyond chunk boundary") ∧
    (∀ (data : Bytes) (fi : ChunkFileInfo), fi.offset + fi.size ≤ data.length →
      CalculateDataHash ((data.drop fi.offset).take fi.size) ≠ fi.hash →
      ExtractFileFromChunk data fi = .error "file hash mismatch") ∧
    ((CreateChunks fsAB ⟨1⟩ [["w", "a"], ["w", "b"]]).1.map ChunkData.data = [[1, 2, 3]] ∧
      ExtractFileFromChunk [1, 2, 3] ⟨["w", "a"], 0, 2, sha256 [1, 2]⟩ = .ok [1, 2] ∧
      ExtractFileFromChunk [9, 2, 3] ⟨["w", "a"], 0, 2, sha256 [1, 2]⟩ =
        .error "file hash mismatch") := by
  refine ⟨?_, ?_, ?_, rfl, rfl, rfl⟩
  · intro fs c files ch fi hch hfi
    have hok := createChunks_chunkOK fs c files ch hch
    exact ⟨extract_ok_of_chunkOK ch fi hok hfi, (hok fi hfi).2⟩
  · intro data fi h
    unfold ExtractFileFromChunk
    rw [if_pos h]
  · intro data fi hb hh
    unfold ExtractFileFromChunk
    rw [if_neg (by omega)]
    simp [hh]

/-! ## C5: the sealing rule -/

theorem sealEq (fs : Fsys) (st : PackState) (p : FPath) (e : FsEntry)
    (hg : getKV fs p = some e) (hd : e.isDir = false) :
    (chunkStep fs st p).chunks =
      (if st.currentSize + e.content.length > ChunkSize ∧ 0 < st.current.files.length then
        st.chunks ++ [{ st.current with hash := CalculateDataHash st.current.data }]
      else st.chunks) := by
  by_cases hr : e.readable = true <;>
    by_cases hA : st.currentSize + e.content.length > ChunkSize <;>
      by_cases hB : 0 < st.current.files.length <;>
        simp [chunkStep, hg, hd, hr, hA, hB]

theorem bigOwn (fs : Fsys) (st : PackState) (p : FPath) (e : FsEntry)
    (hg : getKV fs p = some e) (hd : e.isDir = false) (hr : e.readable = true)
    (hbig : ChunkSize < e.content.length) :
    (chunkStep fs st p).current.files.map ChunkFileInfo.path = [p] := by
  have hA : st.currentSize + e.content.length > ChunkSize := by omega
  by_cases hB : 0 < st.current.files.length
  · simp [chunkStep, hg, hd, hr, hA, hB]
  · have hnil : st.current.files = [] := List.length_eq_zero.mp (by omega)
    simp [chunkStep, hg, hd, hr, hA, hB, hnil]

theorem pack2and4_generic (a b : Bytes) (ha : a.length = 2097152) (hb : b.length = 4194304) :
    (CreateChunks [(paP, ⟨false, true, a, 1⟩), (pbP, ⟨false, true, b, 2⟩)] ⟨1⟩
        [paP, pbP]).1.map (fun c => (c.id, c.files.map (fun f => f.path))) =
      [(1, [paP]), (2, [pbP])] := by
  simp [CreateChunks, chunkStep, getKV_cons_self,
    getKV_cons_ne _ _ _ _ (show pbP ≠ paP by decide), ha, hb, ChunkSize]

theorem packUnread_code (a x b : Bytes) (ha : a.length = 2097152) (hx : x.length = 4194304)
    (hb : b.length = 2097152) :
    (CreateChunks [(paP, ⟨false, true, a, 1⟩), (pxP, ⟨false, false, x, 2⟩),
        (pbP, ⟨false, true, b, 3⟩)] ⟨1⟩ [paP, pxP, pbP]).1.map
      (fun c => c.files.map (fun f => f.path)) = [[paP], [pbP]] := by
  simp [CreateChunks, chunkStep, getKV_cons_self,
    getKV_cons_ne _ _ _ _ (show pxP ≠ paP by decide),
    getKV_cons_ne _ _ _ _ (show pbP ≠ paP by decide),
    getKV_cons_ne _ _ _ _ (show pbP ≠ pxP by decide),
    ha, hx, hb, ChunkSize]

theorem packUnread_claim (a x b : Bytes) (ha : a.length = 2097152) (hx : x.length = 4194304)
    (hb : b.length = 2097152) :
    (createChunksByClaim [(paP, ⟨false, true, a, 1⟩), (pxP, ⟨false, false, x, 2⟩),
        (pbP, ⟨false, true, b, 3⟩)] ⟨1⟩ [paP, pxP, pbP]).1.map
      (fun c => c.files.map (fun f => f.path)) = [[paP, pbP]] := by
  simp [createChunksByClaim, claimStep, getKV_cons_self,
    getKV_cons_ne _ _ _ _ (show pxP ≠ paP by decide),
    getKV_cons_ne _ _ _ _ (show pbP ≠ paP by decide),
    getKV_cons_ne _ _ _ _ (show pbP ≠ pxP by decide),
    ha, hx, hb, ChunkSize]

/-- Claim C5 counterexample — the code's packer and the claim's sealing
rule ("seals exactly when adding the next READABLE file would exceed the
bound") disagree: on a readable 2 MiB file, a stat-able but UNREADABLE
4 MiB file, then a readable 2 MiB file, the code seals at the unreadable
file (its stat size triggers the seal before the read fails) and produces
two chunks `[[a], [b]]`, while the claim's rule ignores the unreadable
file and packs `a` and `b` together into one chunk `[[a, b]]`. -/
theorem C5_seal_on_unreadable_file :
    (CreateChunks fsXbig ⟨1⟩ [paP, pxP, pbP]).1.map
      (fun c => c.files.map (fun f => f.path)) = [[paP], [pbP]] ∧
    (createChunksByClaim fsXbig ⟨1⟩ [paP, pxP, pbP]).1.map
      (fun c => c.files.map (fun f => f.path)) = [[paP, pbP]] ∧
    ([[paP], [pbP]] : List (List FPath)) ≠ [[paP, pbP]] ∧
    (getKV fsXbig pxP).map FsEntry.readable = some false :=
  ⟨packUnread_code _ _ _ (List.length_replicate _ _) (List.length_replicate _ _)
      (List.length_replicate _ _),
   packUnread_claim _ _ _ (List.length_replicate _ _) (List.length_replicate _ _)
      (List.length_replicate _ _),
   by decide, rfl⟩

/-- Claim C5 (amended) — processing input paths in order, the packer seals
the current chunk exactly when the next STAT-ABLE NON-DIRECTORY file's
size would exceed the fixed bound and the current chunk is non-empty
(whether or not that file can then be read; an unreadable file still
triggers the seal and is then skipped); a readable file larger than the
bound always ends up alone in the current chunk; packing a 2 MiB then a
4 MiB file under the 5 MiB bound yields exactly two chunks, the first
holding only the first file. -/
theorem C5_sealing_amended :
    (∀ (fs : Fsys) (st : PackState) (p : FPath) (e : FsEntry),
      getKV fs p = some e → e.isDir = false →
      (chunkStep fs st p).chunks =
        (if st.currentSize + e.content.length > ChunkSize ∧ 0 < st.current.files.length then
          st.chunks ++ [{ st.current with hash := CalculateDataHash st.current.data }]
        else st.chunks)) ∧
    (∀ (fs : Fsys) (st : PackState) (p : FPath), getKV fs p = none →
      chunkStep fs st p = st) ∧
    (∀ (fs : Fsys) (st : PackState) (p : FPath) (e : FsEntry),
      getKV fs p = some e → e.isDir = false → e.readable = true →
      ChunkSize < e.content.length →
      (chunkStep fs st p).current.files.map ChunkFileInfo.path = [p]) ∧
    (∀ (a b : Bytes), a.length = 2097152 → b.length = 4194304 →
      (CreateChunks [(paP, ⟨false, true, a, 1⟩), (pbP, ⟨false, true, b, 2⟩)] ⟨1⟩
          [paP, pbP]).1.map (fun c => (c.id, c.files.map (fun f => f.path))) =
        [(1, [paP]), (2, [pbP])]) := by
  refine ⟨sealEq, ?_, bigOwn, pack2and4_generic⟩
  intro fs st p hg
  simp [chunkStep, hg]

/-! ## C7 phase 1: the classification loop's effect on the file map -/
theorem applyChange_getKV (root : FPath) (acc : BackupMetadata × List FPath)
    (ch : FileChange) (p : FPath) :
    getKV (applyChange root acc ch).1.files p =
      if p = ch.path then applyOne (getKV acc.1.files p) ch else getKV acc.1.files p := by
  unfold applyChange applyOne
  by_cases h1 : ch.operation = "CREATE" ∨ ch.operation = "MODIFY"
  · rw [if_pos h1, if_pos h1]
    cases hfi : ch.fileInfo with
    | some info =>
        by_cases hp : p = ch.path
        · subst hp
          rw [if_pos rfl]
          exact getKV_putKV_self _ _ _
        · rw [if_neg hp]
          exact getKV_putKV_ne _ _ _ _ hp
    | none =>
        by_cases hp : p = ch.path <;> simp [hp]
  · rw [if_neg h1, if_neg h1]
    by_cases h2 : ch.operation = "DELETE"
    · rw [if_pos h2, if_pos h2]
      unfold MarkFileDeleted
      cases hs : getKV acc.1.files ch.path with
      | some info =>
          by_cases hp : p = ch.path
          · subst hp
            rw [if_pos rfl, hs]
            exact getKV_putKV_self _ _ _
          · rw [if_neg hp]
            exact getKV_putKV_ne _ _ _ _ hp
      | none =>
          by_cases hp : p = ch.path
          · subst hp
            rw [if_pos rfl, hs]
          · rw [if_neg hp]
    · rw [if_neg h2, if_neg h2]
      by_cases hp : p = ch.path <;> simp [hp]

theorem applyChanges_getKV_notMem (root : FPath) :
    ∀ (changes : List FileChange) (acc : BackupMetadata × List FPath) (p : FPath),
      p ∉ changes.map FileChange.path →
      getKV (changes.foldl (applyChange root) acc).1.files p = getKV acc.1.files p
  | [], _, _, _ => rfl
  | ch :: rest, acc, p, h => by
      rw [List.foldl_cons]
      have hp : p ≠ ch.path := by
        intro he
        exact h (by rw [List.map_cons, he]; exact List.mem_cons_self _ _)
      have hrest : p ∉ rest.map FileChange.path := by
        intro hmem
        exact h (by rw [List.map_cons]; exact List.mem_cons_of_mem _ hmem)
      rw [applyChanges_getKV_notMem root rest _ p hrest, applyChange_getKV, if_neg hp]

theorem applyChanges_getKV_mem (root : FPath) (changes : List FileChange)
    (acc : BackupMetadata × List FPath) (ev : FileChange)
    (hn : (changes.map FileChange.path).Nodup) (hev : ev ∈ changes) :
    getKV (changes.foldl (applyChange root) acc).1.files ev.path =
      applyOne (getKV acc.1.files ev.path) ev := by
  obtain ⟨l1, l2, rfl⟩ := List.append_of_mem hev
  rw [List.map_append, List.map_cons] at hn
  have hd := List.nodup_append.mp hn
  have h1 : ev.path ∉ l1.map FileChange.path := fun hmem =>
    hd.2.2 hmem (List.mem_cons_self _ _)
  have h2 : ev.path ∉ l2.map FileChange.path := (List.nodup_cons.mp hd.2.1).1
  rw [List.foldl_append, List.foldl_cons]
  rw [applyChanges_getKV_notMem root l2 _ _ h2]
  rw [applyChange_getKV, if_pos rfl]
  rw [applyChanges_getKV_notMem root l1 _ _ h1]

/-! ## C6 and C7: classification lemmas for `DetectChanges` -/

theorem filterMap_keys {α : Type} (g : FPath × α → Option FileChange)
    (hg : ∀ x ev, g x = some ev → ev.path = x.1) :
    ∀ (l : List (FPath × α)),
      (∀ ev ∈ l.filterMap g, ev.path ∈ l.map Prod.fst) ∧
      ((l.map Prod.fst).Nodup → ((l.filterMap g).map FileChange.path).Nodup)
  | [] => ⟨by simp, by simp⟩
  | x :: rest => by
      have ih := filterMap_keys g hg rest
      cases hgx : g x with
      | none =>
          rw [List.filterMap_cons_none hgx]
          constructor
          · intro ev hev
            rw [List.map_cons]
            exact List.mem_cons_of_mem _ (ih.1 ev hev)
          · intro hn
            exact ih.2 (List.nodup_cons.mp hn).2
      | some ev0 =>
          rw [List.filterMap_cons_some hgx]
          constructor
          · intro ev hev
            rw [List.map_cons]
            rcases List.mem_cons.mp hev with h | h
            · subst h
              rw [hg x ev hgx]
              exact List.mem_cons_self _ _
            · exact List.mem_cons_of_mem _ (ih.1 ev h)
          · intro hn
            have hn' := List.nodup_cons.mp hn
            rw [List.map_cons, List.nodup_cons]
            constructor
            · intro hmem
              rcases List.mem_map.mp hmem with ⟨ev, hev, hpath⟩
              have := ih.1 ev hev
              rw [hpath, hg x ev0 hgx] at this
              exact hn'.1 this
            · exact ih.2 hn'.2

theorem detect_g1_path (m : BackupMetadata) :
    ∀ (pc : FPath × FileInfo) (ev : FileChange),
      (match getKV m.files pc.1 with
        | some stored =>
            if ¬stored.isDeleted ∧ (stored.hash ≠ pc.2.hash ∨ stored.modTime ≠ pc.2.modTime) then
              some { path := pc.1, operation := "MODIFY", fileInfo := some pc.2 }
            else none
        | none => some { path := pc.1, operation := "CREATE", fileInfo := some pc.2 }) = some ev →
      ev.path = pc.1 := by
  intro pc ev h
  cases hs : getKV m.files pc.1 with
  | none =>
      simp only [hs] at h
      obtain rfl := (Option.some.injEq _ _).mp h
      rfl
  | some stored =>
      simp only [hs] at h
      by_cases hc : ¬stored.isDeleted ∧ (stored.hash ≠ pc.2.hash ∨ stored.modTime ≠ pc.2.modTime)
      · rw [if_pos hc] at h
        obtain rfl := (Option.some.injEq _ _).mp h
        rfl
      · rw [if_neg hc] at h
        exact Option.noConfusion h

theorem detect_g2_path (cur : List (FPath × FileInfo)) :
    ∀ (ps : FPath × FileInfo) (ev : FileChange),
      (if ¬ps.2.isDeleted ∧ getKV cur ps.1 = none then
        some { path := ps.1, operation := "DELETE", fileInfo := none }
      else none) = some ev → ev.path = ps.1 := by
  intro ps ev h
  by_cases hc : ¬ps.2.isDeleted ∧ getKV cur ps.1 = none
  · rw [if_pos hc] at h
    obtain rfl := (Option.some.injEq _ _).mp h
    rfl
  · rw [if_neg hc] at h
    exact Option.noConfusion h

theorem detect_create_mem (m : BackupMetadata) (fs : Fsys) (root p : FPath) (c : FileInfo)
    (hmem : (p, c) ∈ walkTree fs root) (hs : getKV m.files p = none) :
    ({ path := p, operation := "CREATE", fileInfo := some c } : FileChange) ∈
      DetectChanges m fs root := by
  simp only [DetectChanges]
  apply List.mem_append_left
  exact List.mem_filterMap.mpr ⟨(p, c), hmem, by simp only [hs]⟩

theorem detect_modify_mem (m : BackupMetadata) (fs : Fsys) (root p : FPath)
    (c s : FileInfo) (hmem : (p, c) ∈ walkTree fs root) (hs : getKV m.files p = some s)
    (hc : ¬s.isDeleted ∧ (s.hash ≠ c.hash ∨ s.modTime ≠ c.modTime)) :
    ({ path := p, operation := "MODIFY", fileInfo := some c } : FileChange) ∈
      DetectChanges m fs root := by
  simp only [DetectChanges]
  apply List.mem_append_left
  exact List.mem_filterMap.mpr ⟨(p, c), hmem, by simp only [hs, if_pos hc]⟩

theorem detect_delete_mem (m : BackupMetadata) (fs : Fsys) (root p : FPath) (s : FileInfo)
    (hmem : (p, s) ∈ m.files) (hc : ¬s.isDeleted ∧ getKV (walkTree fs root) p = none) :
    ({ path := p, operation := "DELETE", fileInfo := none } : FileChange) ∈
      DetectChanges m fs root := by
  simp only [DetectChanges]
  apply List.mem_append_right
  exact List.mem_filterMap.mpr ⟨(p, s), hmem, by rw [if_pos hc]⟩

theorem changes_paths_nodup (m : BackupMetadata) (fs : Fsys) (root : FPath)
    (hw : keysNodup (walkTree fs root)) (hm : keysNodup m.files) :
    ((DetectChanges m fs root).map FileChange.path).Nodup := by
  simp only [DetectChanges]
  rw [List.map_append, List.nodup_append]
  refine ⟨(filterMap_keys _ (detect_g1_path m) _).2 hw,
    (filterMap_keys _ (detect_g2_path _) _).2 hm, ?_⟩
  intro q hq1 hq2
  rcases List.mem_map.mp hq1 with ⟨ev1, hev1, hp1⟩
  have hkey1 : q ∈ (walkTree fs root).map Prod.fst :=
    hp1 ▸ (filterMap_keys _ (detect_g1_path m) _).1 ev1 hev1
  rcases List.mem_map.mp hq2 with ⟨ev2, hev2, hp2⟩
  rcases List.mem_filterMap.mp hev2 with ⟨⟨p2, s2⟩, _, hg2⟩
  by_cases hc : ¬s2.isDeleted ∧ getKV (walkTree fs root) p2 = none
  · rw [if_pos hc] at hg2
    obtain rfl := (Option.some.injEq _ _).mp hg2
    have hq2' : q = p2 := hp2.symm
    subst hq2'
    exact (getKV_eq_none_iff _ _).mp hc.2 hkey1
  · rw [if_neg hc] at hg2
    exact Option.noConfusion hg2

theorem not_mem_changes (m : BackupMetadata) (fs : Fsys) (root p : FPath)
    (h1 : ∀ c, (p, c) ∈ walkTree fs root →
      ∃ s, getKV m.files p = some s ∧
        (s.isDeleted = true ∨ (s.hash = c.hash ∧ s.modTime = c.modTime)))
    (h2 : ∀ s, (p, s) ∈ m.files → s.isDeleted = true ∨ getKV (walkTree fs root) p ≠ none) :
    p ∉ (DetectChanges m fs root).map FileChange.path := by
  intro hmem
  rcases List.mem_map.mp hmem with ⟨ev, hev, hpath⟩
  simp only [DetectChanges] at hev
  rcases List.mem_append.mp hev with h | h
  · rcases List.mem_filterMap.mp h with ⟨⟨q, c⟩, hqc, hg⟩
    have hq : ev.path = q := detect_g1_path m _ _ hg
    have hq' : q = p := by rw [← hq, hpath]
    subst hq'
    obtain ⟨s, hs, hcase⟩ := h1 c hqc
    simp only [hs] at hg
    have hcond : ¬(¬s.isDeleted = true ∧ (s.hash ≠ c.hash ∨ s.modTime ≠ c.modTime)) := by
      rcases hcase with hdel | ⟨hh, hmt⟩
      · intro hcnd
        exact hcnd.1 hdel
      · intro hcnd
        rcases hcnd.2 with h' | h'
        · exact h' hh
        · exact h' hmt
    rw [if_neg hcond] at hg
    exact Option.noConfusion hg
  · rcases List.mem_filterMap.mp h with ⟨⟨q, s⟩, hqs, hg⟩
    by_cases hc : ¬s.isDeleted ∧ getKV (walkTree fs root) q = none
    · rw [if_pos hc] at hg
      obtain rfl := (Option.some.injEq _ _).mp hg
      have hq' : q = p := hpath
      subst hq'
      rcases h2 s hqs with hdel | hne
      · exact hc.1 hdel
      · exact hne hc.2
    · rw [if_neg hc] at hg
      exact Option.noConfusion hg


/-! ## C7 and C9: the orchestrator preserves record cores, key-nodup and persistence state -/
theorem refsStep_core (w : FPath) (cid : Nat) (m : BackupMetadata) (cfi : ChunkFileInfo)
    (p : FPath) :
    coreOf (getKV (refsStep w cid m cfi).files p) = coreOf (getKV m.files p) := by
  simp only [refsStep]
  split
  next stored hs =>
    unfold UpdateFileInfo
    by_cases hp : p = relOf w cfi.path
    · subst hp
      rw [getKV_putKV_self]
      unfold GetFileInfo at hs
      rw [hs]
      rfl
    · rw [getKV_putKV_ne _ _ _ _ hp]
  next => rfl

theorem refsStep_keys (w : FPath) (cid : Nat) (m : BackupMetadata) (cfi : ChunkFileInfo)
    (hn : keysNodup m.files) : keysNodup (refsStep w cid m cfi).files := by
  simp only [refsStep]
  split
  next stored hs => exact keysNodup_putKV _ _ _ hn
  next => exact hn

theorem refsFold_core (w : FPath) (cid : Nat) :
    ∀ (l : List ChunkFileInfo) (m : BackupMetadata) (p : FPath),
      coreOf (getKV ((l.foldl (refsStep w cid) m)).files p) = coreOf (getKV m.files p)
  | [], _, _ => rfl
  | cfi :: rest, m, p => by
      rw [List.foldl_cons]
      rw [refsFold_core w cid rest _ p, refsStep_core]

theorem refsFold_keys (w : FPath) (cid : Nat) :
    ∀ (l : List ChunkFileInfo) (m : BackupMetadata), keysNodup m.files →
      keysNodup ((l.foldl (refsStep w cid) m)).files
  | [], _, hn => hn
  | cfi :: rest, m, hn => by
      rw [List.foldl_cons]
      exact refsFold_keys w cid rest _ (refsStep_keys w cid m cfi hn)

theorem processChunk_core (env : Env) (acc : EngineState × Option String) (chunk : ChunkData)
    (p : FPath) :
    coreOf (getKV (processChunk env acc chunk).1.meta.files p) =
      coreOf (getKV acc.1.meta.files p) := by
  simp only [processChunk]
  split
  · rfl
  · split
    · rfl
    · by_cases hw : chunk.id ∈ env.writeFails
      · rw [if_pos hw]
      · rw [if_neg hw]
        exact refsFold_core _ _ _ _ p

theorem processChunk_keys (env : Env) (acc : EngineState × Option String) (chunk : ChunkData)
    (hn : keysNodup acc.1.meta.files) : keysNodup (processChunk env acc chunk).1.meta.files := by
  simp only [processChunk]
  split
  · exact hn
  · split
    · exact hn
    · by_cases hw : chunk.id ∈ env.writeFails
      · rw [if_pos hw]
        exact hn
      · rw [if_neg hw]
        exact refsFold_keys _ _ _ _ hn

theorem processChunk_persisted (env : Env) (acc : EngineState × Option String)
    (chunk : ChunkData) :
    (processChunk env acc chunk).1.persisted = acc.1.persisted := by
  simp only [processChunk]
  split
  · rfl
  · split
    · rfl
    · by_cases hw : chunk.id ∈ env.writeFails
      · rw [if_pos hw]
      · rw [if_neg hw]

theorem createLoop_core (env : Env) :
    ∀ (chunks : List ChunkData) (acc : EngineState × Option String) (p : FPath),
      coreOf (getKV ((chunks.foldl (processChunk env) acc).1).meta.files p) =
        coreOf (getKV acc.1.meta.files p)
  | [], _, _ => rfl
  | c :: rest, acc, p => by
      rw [List.foldl_cons]
      rw [createLoop_core env rest _ p, processChunk_core]

theorem createLoop_keys (env : Env) :
    ∀ (chunks : List ChunkData) (acc : EngineState × Option String),
      keysNodup acc.1.meta.files →
      keysNodup ((chunks.foldl (processChunk env) acc).1).meta.files
  | [], _, hn => hn
  | c :: rest, acc, hn => by
      rw [List.foldl_cons]
      exact createLoop_keys env rest _ (processChunk_keys env acc c hn)

theorem createLoop_persisted (env : Env) :
    ∀ (chunks : List ChunkData) (acc : EngineState × Option String),
      ((chunks.foldl (processChunk env) acc).1).persisted = acc.1.persisted
  | [], _ => rfl
  | c :: rest, acc => by
      rw [List.foldl_cons]
      rw [createLoop_persisted env rest _, processChunk_persisted]

theorem handleChanges_core (env : Env) (st : EngineState) (changes : List FileChange)
    (now : Nat) (p : FPath) :
    coreOf (getKV ((handleChanges env st changes now).1).meta.files p) =
      coreOf (getKV (applyChanges env.watchPath st.meta changes).1.files p) := by
  simp only [handleChanges]
  by_cases hlen : 0 < (applyChanges env.watchPath st.meta changes).2.length
  · rw [if_pos hlen]
    split
    · simp only [createBackupChunks]
      exact createLoop_core env _ _ p
    · simp only [SaveMetadata, createBackupChunks]
      exact createLoop_core env _ _ p
  · rw [if_neg hlen]
    rfl

theorem handleChanges_keys (env : Env) (st : EngineState) (changes : List FileChange)
    (now : Nat) (hn : keysNodup (applyChanges env.watchPath st.meta changes).1.files) :
    keysNodup ((handleChanges env st changes now).1).meta.files := by
  simp only [handleChanges]
  by_cases hlen : 0 < (applyChanges env.watchPath st.meta changes).2.length
  · rw [if_pos hlen]
    split
    · simp only [createBackupChunks]
      exact createLoop_keys env _ _ hn
    · simp only [SaveMetadata, createBackupChunks]
      exact createLoop_keys env _ _ hn
  · rw [if_neg hlen]
    exact hn

theorem processChunk_files_sub (env : Env) (acc : EngineState × Option String)
    (chunk : ChunkData) :
    ∀ (id : Nat) (b : Bytes), getKV (processChunk env acc chunk).1.chunkFiles id = some b →
      getKV acc.1.chunkFiles id = some b ∨ ∃ raw, env.codec.compress raw = Except.ok b := by
  simp only [processChunk]
  split
  · intro id b h
    exact Or.inl h
  · split
    · intro id b h
      exact Or.inl h
    next compressed heq =>
      by_cases hw : chunk.id ∈ env.writeFails
      · rw [if_pos hw]
        intro id b h
        exact Or.inl h
      · rw [if_neg hw]
        intro id b h
        by_cases hid : id = chunk.id
        · subst hid
          rw [getKV_putKV_self] at h
          obtain rfl := (Option.some.injEq _ _).mp h
          exact Or.inr ⟨chunk.data, heq⟩
        · rw [getKV_putKV_ne _ _ _ _ hid] at h
          exact Or.inl h

theorem processChunk_files_keep (env : Env) (acc : EngineState × Option String)
    (chunk : ChunkData) :
    ∀ (id : Nat) (b0 : Bytes), getKV acc.1.chunkFiles id = some b0 →
      ∃ b, getKV (processChunk env acc chunk).1.chunkFiles id = some b := by
  simp only [processChunk]
  split
  · intro id b0 h
    exact ⟨b0, h⟩
  · split
    · intro id b0 h
      exact ⟨b0, h⟩
    next compressed heq =>
      by_cases hw : chunk.id ∈ env.writeFails
      · rw [if_pos hw]
        intro id b0 h
        exact ⟨b0, h⟩
      · rw [if_neg hw]
        intro id b0 h
        by_cases hid : id = chunk.id
        · subst hid
          exact ⟨compressed, getKV_putKV_self _ _ _⟩
        · rw [← getKV_putKV_ne acc.1.chunkFiles chunk.id id compressed hid] at h
          exact ⟨b0, h⟩

theorem createLoop_files_sub (env : Env) :
    ∀ (chunks : List ChunkData) (acc : EngineState × Option String) (id : Nat) (b : Bytes),
      getKV ((chunks.foldl (processChunk env) acc).1).chunkFiles id = some b →
      getKV acc.1.chunkFiles id = some b ∨ ∃ raw, env.codec.compress raw = Except.ok b
  | [], _, _, _, h => Or.inl h
  | c :: rest, acc, id, b, h => by
      rw [List.foldl_cons] at h
      rcases createLoop_files_sub env rest _ id b h with h' | h'
      · exact processChunk_files_sub env acc c id b h'
      · exact Or.inr h'

theorem createLoop_files_keep (env : Env) :
    ∀ (chunks : List ChunkData) (acc : EngineState × Option String) (id : Nat) (b0 : Bytes),
      getKV acc.1.chunkFiles id = some b0 →
      ∃ b, getKV ((chunks.foldl (processChunk env) acc).1).chunkFiles id = some b
  | [], _, _, b0, h => ⟨b0, h⟩
  | c :: rest, acc, id, b0, h => by
      rw [List.foldl_cons]
      obtain ⟨b1, h1⟩ := processChunk_files_keep env acc c id b0 h
      exact createLoop_files_keep env rest _ id b1 h1

/-- Claim C9 — in every batch, the catalog is persisted only after every
chunk compression and chunk-file write succeeded: if `handleChanges`
returns an error the durable catalog is exactly what it was before the
batch, and on success it is exactly the batch's final in-memory catalog;
moreover every chunk file present after the batch is either its
pre-batch content or the intact output of a successful compression (no
torn chunk files), and no pre-existing chunk file disappears. -/
theorem C9_save_only_after_batch (env : Env) (st : EngineState) (changes : List FileChange)
    (now : Nat) :
    ((handleChanges env st changes now).2 ≠ none →
      (handleChanges env st changes now).1.persisted = st.persisted) ∧
    ((handleChanges env st changes now).2 = none →
      (handleChanges env st changes now).1.persisted =
        some (handleChanges env st changes now).1.meta) ∧
    (∀ (id : Nat) (b : Bytes),
      getKV (handleChanges env st changes now).1.chunkFiles id = some b →
      getKV st.chunkFiles id = some b ∨ ∃ raw, env.codec.compress raw = Except.ok b) ∧
    (∀ (id : Nat) (b0 : Bytes), getKV st.chunkFiles id = some b0 →
      ∃ b, getKV (handleChanges env st changes now).1.chunkFiles id = some b) := by
  simp only [handleChanges]
  by_cases hlen : 0 < (applyChanges env.watchPath st.meta changes).2.length
  · rw [if_pos hlen]
    split
    next e heq =>
      refine ⟨?_, ?_, ?_, ?_⟩
      · intro _
        simp only [createBackupChunks]
        exact createLoop_persisted env _ _
      · intro hcontra
        exact Option.noConfusion hcontra
      · simp only [createBackupChunks]
        intro id b h
        exact createLoop_files_sub env _ _ id b h
      · simp only [createBackupChunks]
        intro id b0 h
        exact createLoop_files_keep env _ _ id b0 h
    next heq =>
      refine ⟨?_, ?_, ?_, ?_⟩
      · intro hcontra
        exact absurd rfl hcontra
      · intro _
        rfl
      · simp only [SaveMetadata, createBackupChunks]
        intro id b h
        exact createLoop_files_sub env _ _ id b h
      · simp only [SaveMetadata, createBackupChunks]
        intro id b0 h
        exact createLoop_files_keep env _ _ id b0 h
  · rw [if_neg hlen]
    refine ⟨?_, ?_, ?_, ?_⟩
    · intro hcontra
      exact absurd rfl hcontra
    · intro _
      rfl
    · intro id b h
      exact Or.inl h
    · intro id b0 h
      exact ⟨b0, h⟩

theorem mem_of_getKV_some {K V : Type} [DecidableEq K] :
    ∀ {l : List (K × V)} {k : K} {v : V}, getKV l k = some v → (k, v) ∈ l
  | [], k, v, h => by simp [getKV] at h
  | (a, b) :: rest, k, v, h => by
      by_cases hk : k = a
      · subst hk
        rw [getKV_cons_self] at h
        obtain rfl := (Option.some.injEq _ _).mp h
        exact List.mem_cons_self _ _
      · rw [getKV_cons_ne _ _ _ _ hk] at h
        exact List.mem_cons_of_mem _ (mem_of_getKV_some h)

theorem coreOf_some_some {s t : FileInfo} (h : coreOf (some s) = coreOf (some t)) :
    s.hash = t.hash ∧ s.modTime = t.modTime ∧ s.isDeleted = t.isDeleted := by
  simp only [coreOf, Option.map_some', Option.some.injEq, Prod.mk.injEq] at h
  exact h

theorem coreOf_some_none {s : FileInfo} (h : coreOf (some s) = coreOf none) : False := by
  simp [coreOf] at h

theorem applyOne_create (old : Option FileInfo) (p : FPath) (c : FileInfo) :
    applyOne old { path := p, operation := "CREATE", fileInfo := some c } = some c := by
  simp [applyOne]

theorem applyOne_modify (old : Option FileInfo) (p : FPath) (c : FileInfo) :
    applyOne old { path := p, operation := "MODIFY", fileInfo := some c } = some c := by
  simp [applyOne]

theorem applyOne_delete (s : FileInfo) (p : FPath) :
    applyOne (some s) { path := p, operation := "DELETE", fileInfo := none } =
      some { s with isDeleted := true } := by
  simp [applyOne]

theorem applyChange_keys (root : FPath) (acc : BackupMetadata × List FPath) (ch : FileChange)
    (hn : keysNodup acc.1.files) : keysNodup (applyChange root acc ch).1.files := by
  unfold applyChange
  by_cases h1 : ch.operation = "CREATE" ∨ ch.operation = "MODIFY"
  · rw [if_pos h1]
    split
    · exact keysNodup_putKV _ _ _ hn
    · exact hn
  · rw [if_neg h1]
    by_cases h2 : ch.operation = "DELETE"
    · rw [if_pos h2]
      unfold MarkFileDeleted
      split
      · exact keysNodup_putKV _ _ _ hn
      · exact hn
    · rw [if_neg h2]
      exact hn

theorem applyChanges_keys (root : FPath) :
    ∀ (changes : List FileChange) (acc : BackupMetadata × List FPath),
      keysNodup acc.1.files → keysNodup ((changes.foldl (applyChange root) acc)).1.files
  | [], _, hn => hn
  | ch :: rest, acc, hn => by
      rw [List.foldl_cons]
      exact applyChanges_keys root rest _ (applyChange_keys root acc ch hn)

/-- Claim C6 (amended) — reconcile's classification, exactly: CREATE for
each walked path with no catalog record at all; MODIFY for each walked
path whose record is live and differs in hash or modification time;
DELETE for each live catalog record whose path is missing from the walk;
and nothing else — in particular a walked path whose record is TOMBSTONED
yields no event (not the CREATE the original claim states; see the
counterexample). -/
theorem C6_classification_amended (m : BackupMetadata) (fs : Fsys) (root : FPath)
    (ev : FileChange) :
    ev ∈ DetectChanges m fs root ↔
      ((∃ p c, (p, c) ∈ walkTree fs root ∧ getKV m.files p = none ∧
          ev = { path := p, operation := "CREATE", fileInfo := some c }) ∨
       (∃ p c s, (p, c) ∈ walkTree fs root ∧ getKV m.files p = some s ∧
          ¬s.isDeleted ∧ (s.hash ≠ c.hash ∨ s.modTime ≠ c.modTime) ∧
          ev = { path := p, operation := "MODIFY", fileInfo := some c }) ∨
       (∃ p s, (p, s) ∈ m.files ∧ ¬s.isDeleted ∧ getKV (walkTree fs root) p = none ∧
          ev = { path := p, operation := "DELETE", fileInfo := none })) := by
  constructor
  · intro hev
    simp only [DetectChanges] at hev
    rcases List.mem_append.mp hev with h | h
    · rcases List.mem_filterMap.mp h with ⟨⟨p, c⟩, hmem, hg⟩
      cases hs : getKV m.files p with
      | none =>
          simp only [hs] at hg
          obtain rfl := (Option.some.injEq _ _).mp hg
          exact Or.inl ⟨p, c, hmem, hs, rfl⟩
      | some s =>
          simp only [hs] at hg
          by_cases hc : ¬s.isDeleted ∧ (s.hash ≠ c.hash ∨ s.modTime ≠ c.modTime)
          · rw [if_pos hc] at hg
            obtain rfl := (Option.some.injEq _ _).mp hg
            exact Or.inr (Or.inl ⟨p, c, s, hmem, hs, hc.1, hc.2, rfl⟩)
          · rw [if_neg hc] at hg
            exact Option.noConfusion hg
    · rcases List.mem_filterMap.mp h with ⟨⟨p, s⟩, hmem, hg⟩
      by_cases hc : ¬s.isDeleted ∧ getKV (walkTree fs root) p = none
      · rw [if_pos hc] at hg
        obtain rfl := (Option.some.injEq _ _).mp hg
        exact Or.inr (Or.inr ⟨p, s, hmem, hc.1, hc.2, rfl⟩)
      · rw [if_neg hc] at hg
        exact Option.noConfusion hg
  · rintro (⟨p, c, hmem, hs, rfl⟩ | ⟨p, c, s, hmem, hs, hd, hdiff, rfl⟩ |
      ⟨p, s, hmem, hd, hwp, rfl⟩)
    · exact detect_create_mem m fs root p c hmem hs
    · exact detect_modify_mem m fs root p c s hmem hs ⟨hd, hdiff⟩
    · exact detect_delete_mem m fs root p s hmem ⟨hd, hwp⟩

/-- Claim C7 — reconcile is idempotent across a full backup: running
`DetectChanges` again on the catalog produced by `PerformFullBackup`
(reconcile, then one batch that updates and saves the catalog), with the
filesystem unchanged, yields the empty change list.  This holds whether or
not the batch's chunk writes succeeded, since the classification loop has
already upserted every observed record. -/
theorem C7_reconcile_idempotent (env : Env) (st : EngineState) (now : Nat)
    (hw : keysNodup (walkTree env.fs env.watchPath)) (hm : keysNodup st.meta.files) :
    DetectChanges ((PerformFullBackup env st now).1).meta env.fs env.watchPath = [] := by
  have hchn := changes_paths_nodup st.meta env.fs env.watchPath hw hm
  have hcore : ∀ q : FPath,
      coreOf (getKV ((PerformFullBackup env st now).1).meta.files q) =
        coreOf (getKV (((DetectChanges st.meta env.fs env.watchPath).foldl
          (applyChange env.watchPath) (st.meta, []))).1.files q) :=
    fun q => handleChanges_core env st _ now q
  have hnodup3 : keysNodup ((PerformFullBackup env st now).1).meta.files :=
    handleChanges_keys env st _ now (applyChanges_keys env.watchPath _ (st.meta, []) hm)
  simp only [DetectChanges]
  refine List.append_eq_nil.mpr ⟨?_, ?_⟩
  · rw [List.filterMap_eq_nil_iff]
    rintro ⟨p, c⟩ hmem
    have hwsome : getKV (walkTree env.fs env.watchPath) p = some c := getKV_of_mem hw hmem
    cases hs0 : getKV st.meta.files p with
    | none =>
        have hev := detect_create_mem st.meta env.fs env.watchPath p c hmem hs0
        have h1 : getKV (((DetectChanges st.meta env.fs env.watchPath).foldl
            (applyChange env.watchPath) (st.meta, []))).1.files p =
            applyOne (getKV st.meta.files p)
              { path := p, operation := "CREATE", fileInfo := some c } :=
          applyChanges_getKV_mem env.watchPath _ (st.meta, []) _ hchn hev
        rw [applyOne_create] at h1
        have hc3 := (hcore p).trans (by rw [h1])
        cases hx3 : getKV ((PerformFullBackup env st now).1).meta.files p with
        | none =>
            rw [hx3] at hc3
            exact absurd hc3.symm (fun h => coreOf_some_none h)
        | some s3 =>
            rw [hx3] at hc3
            obtain ⟨hh, hmt, _⟩ := coreOf_some_some hc3
            simp only [hx3]
            rw [if_neg (fun hcnd => by
              rcases hcnd.2 with h' | h'
              · exact h' hh
              · exact h' hmt)]
    | some s0 =>
        by_cases hdel0 : s0.isDeleted = true
        · have hnot : p ∉ (DetectChanges st.meta env.fs env.watchPath).map FileChange.path := by
            apply not_mem_changes
            · intro c' _
              exact ⟨s0, hs0, Or.inl hdel0⟩
            · intro s' _
              exact Or.inr (by rw [hwsome]; exact fun h => Option.noConfusion h)
          have h1 : getKV (((DetectChanges st.meta env.fs env.watchPath).foldl
              (applyChange env.watchPath) (st.meta, []))).1.files p = getKV st.meta.files p :=
            applyChanges_getKV_notMem env.watchPath _ (st.meta, []) p hnot
          rw [hs0] at h1
          have hc3 := (hcore p).trans (by rw [h1])
          cases hx3 : getKV ((PerformFullBackup env st now).1).meta.files p with
          | none =>
              rw [hx3] at hc3
              exact absurd hc3.symm (fun h => coreOf_some_none h)
          | some s3 =>
              rw [hx3] at hc3
              obtain ⟨_, _, hdel⟩ := coreOf_some_some hc3
              simp only [hx3]
              rw [if_neg (fun hcnd => hcnd.1 (by rw [hdel]; exact hdel0))]
        · by_cases hdiff : s0.hash ≠ c.hash ∨ s0.modTime ≠ c.modTime
          · have hev := detect_modify_mem st.meta env.fs env.watchPath p c s0 hmem hs0
              ⟨hdel0, hdiff⟩
            have h1 : getKV (((DetectChanges st.meta env.fs env.watchPath).foldl
                (applyChange env.watchPath) (st.meta, []))).1.files p =
                applyOne (getKV st.meta.files p)
                  { path := p, operation := "MODIFY", fileInfo := some c } :=
              applyChanges_getKV_mem env.watchPath _ (st.meta, []) _ hchn hev
            rw [applyOne_modify] at h1
            have hc3 := (hcore p).trans (by rw [h1])
            cases hx3 : getKV ((PerformFullBackup env st now).1).meta.files p with
            | none =>
                rw [hx3] at hc3
                exact absurd hc3.symm (fun h => coreOf_some_none h)
            | some s3 =>
                rw [hx3] at hc3
                obtain ⟨hh, hmt, _⟩ := coreOf_some_some hc3
                simp only [hx3]
                rw [if_neg (fun hcnd => by
                  rcases hcnd.2 with h' | h'
                  · exact h' hh
                  · exact h' hmt)]
          · push_neg at hdiff
            have hnot : p ∉ (DetectChanges st.meta env.fs env.watchPath).map FileChange.path := by
              apply not_mem_changes
              · intro c' hmem'
                have hc' : c' = c := by
                  have h2 := getKV_of_mem hw hmem'
                  rw [hwsome] at h2
                  exact ((Option.some.injEq _ _).mp h2).symm
                subst hc'
                exact ⟨s0, hs0, Or.inr ⟨hdiff.1, hdiff.2⟩⟩
              · intro s' _
                exact Or.inr (by rw [hwsome]; exact fun h => Option.noConfusion h)
            have h1 : getKV (((DetectChanges st.meta env.fs env.watchPath).foldl
                (applyChange env.watchPath) (st.meta, []))).1.files p = getKV st.meta.files p :=
              applyChanges_getKV_notMem env.watchPath _ (st.meta, []) p hnot
            rw [hs0] at h1
            have hc3 := (hcore p).trans (by rw [h1])
            cases hx3 : getKV ((PerformFullBackup env st now).1).meta.files p with
            | none =>
                rw [hx3] at hc3
                exact absurd hc3.symm (fun h => coreOf_some_none h)
            | some s3 =>
                rw [hx3] at hc3
                obtain ⟨hh, hmt, _⟩ := coreOf_some_some hc3
                simp only [hx3]
                rw [if_neg (fun hcnd => by
                  rcases hcnd.2 with h' | h'
                  · exact h' (by rw [hh, hdiff.1])
                  · exact h' (by rw [hmt, hdiff.2]))]
  · rw [List.filterMap_eq_nil_iff]
    rintro ⟨p, s3⟩ hmem3
    have hs3 : getKV ((PerformFullBackup env st now).1).meta.files p = some s3 :=
      getKV_of_mem hnodup3 hmem3
    by_cases hwp : getKV (walkTree env.fs env.watchPath) p = none
    · cases hs0 : getKV st.meta.files p with
      | none =>
          have hnot : p ∉ (DetectChanges st.meta env.fs env.watchPath).map FileChange.path := by
            apply not_mem_changes
            · intro c' hmem'
              exfalso
              have h2 := getKV_of_mem hw hmem'
              rw [hwp] at h2
              exact Option.noConfusion h2
            · intro s' hmem'
              exfalso
              have h2 := getKV_of_mem hm hmem'
              rw [hs0] at h2
              exact Option.noConfusion h2
          have h1 : getKV (((DetectChanges st.meta env.fs env.watchPath).foldl
              (applyChange env.watchPath) (st.meta, []))).1.files p = getKV st.meta.files p :=
            applyChanges_getKV_notMem env.watchPath _ (st.meta, []) p hnot
          rw [hs0] at h1
          have hc3 := (hcore p).trans (by rw [h1])
          rw [hs3] at hc3
          exact absurd hc3 (fun h => coreOf_some_none h)
      | some s0 =>
          by_cases hdel0 : s0.isDeleted = true
          · have hnot : p ∉ (DetectChanges st.meta env.fs env.watchPath).map FileChange.path := by
              apply not_mem_changes
              · intro c' hmem'
                exfalso
                have h2 := getKV_of_mem hw hmem'
                rw [hwp] at h2
                exact Option.noConfusion h2
              · intro s' hmem'
                have h2 := getKV_of_mem hm hmem'
                rw [hs0] at h2
                obtain rfl := (Option.some.injEq _ _).mp h2.symm
                exact Or.inl hdel0
            have h1 : getKV (((DetectChanges st.meta env.fs env.watchPath).foldl
                (applyChange env.watchPath) (st.meta, []))).1.files p = getKV st.meta.files p :=
              applyChanges_getKV_notMem env.watchPath _ (st.meta, []) p hnot
            rw [hs0] at h1
            have hc3 := (hcore p).trans (by rw [h1])
            rw [hs3] at hc3
            obtain ⟨_, _, hdel⟩ := coreOf_some_some hc3
            rw [if_neg (fun hcnd => hcnd.1 (by rw [hdel]; exact hdel0))]
          · have hmem0 : (p, s0) ∈ st.meta.files := mem_of_getKV_some hs0
            have hev := detect_delete_mem st.meta env.fs env.watchPath p s0 hmem0 ⟨hdel0, hwp⟩
            have h1 : getKV (((DetectChanges st.meta env.fs env.watchPath).foldl
                (applyChange env.watchPath) (st.meta, []))).1.files p =
                applyOne (getKV st.meta.files p)
                  { path := p, operation := "DELETE", fileInfo := none } :=
              applyChanges_getKV_mem env.watchPath _ (st.meta, []) _ hchn hev
            rw [hs0, applyOne_delete] at h1
            have hc3 := (hcore p).trans (by rw [h1])
            rw [hs3] at hc3
            obtain ⟨_, _, hdel⟩ := coreOf_some_some hc3
            rw [if_neg (fun hcnd => hcnd.1 (by rw [hdel]))]
    · rw [if_neg (fun hcnd => hwp hcnd.2)]

/-- The C7 witness: a concrete full backup of `fsAB` after which a second
reconcile reports nothing. -/
theorem C7_reconcile_idempotent_witness :
    DetectChanges ((PerformFullBackup envAB est0 7).1).meta envAB.fs envAB.watchPath = [] :=
  C7_reconcile_idempotent envAB est0 7
    (by show ((walkTree envAB.fs envAB.watchPath).map Prod.fst).Nodup; decide)
    (by show ((est0.meta.files).map Prod.fst).Nodup; decide)

end GoBackup
